import Mathlib

/-!
# A shallow embedding of `src/yaml_parser.c`

The development models the reader of `src/yaml_parser.c` / `src/yaml_parser.h`:

* bytes are natural numbers (a `char` is a value below 256), memory blocks and
  C strings are lists of bytes; a `char *` read as a string designates the
  bytes before the first NUL (`cstr`);
* a `next`-linked chain of `yml_hash_map_elem` is a list, the table is the
  array of `MAP_SIZE` chains;
* a pointer that may be null is an `Option`; a call that dereferences a null
  pointer or blocks forever has no result (`none`);
* `size_t` is 64 bits wide and `int` is 32 bits wide (two's complement,
  little-endian), as on the Linux targets the source is written for
  (`semaphore.h`, GNU `\s` in the patterns);
* `malloc`, `regcomp` on the two fixed patterns, `sem_wait` on a positive
  counter and `sem_post` succeed; `malloc` does not clear what it returns, so
  the chains found in the block obtained for the table are a parameter of
  `initYmlParser` (a block whose words designate no chain at all, over which
  every walk is undefined, has no counterpart here);
* the source's `struct yml_parser`, `init_yml_parser`, `exec_parser` and
  `free_parser` are written `ymlParser`, `initYmlParser`, `execParser` and
  `freeParser`; the other definitions keep the names of the source.
-/

namespace YmlParser

/-! ## Bytes, C strings and the libc helpers the source calls -/

/-- The bytes of a string literal. -/
def bytes (s : String) : List Nat := s.toList.map Char.toNat

/-- The C string a `char *` designates: the bytes before the first NUL. -/
def cstr (s : List Nat) : List Nat := s.takeWhile (fun c => c != 0)

/-- `strlen`. -/
def strlen (s : List Nat) : Nat := (cstr s).length

/-- `memcpy(dest, src, n)`: the first `n` bytes of `dest` are replaced by the
first `n` bytes of `src`. -/
def memcpy (dest src : List Nat) (n : Nat) : List Nat := src.take n ++ dest.drop n

/-- `strncpy(dest, src, n)` into a block of `n` bytes: the string `src` cut at
`n` bytes, padded with NULs up to `n` bytes. -/
def strncpy (src : List Nat) (n : Nat) : List Nat :=
  (cstr src).take n ++ List.replicate (n - ((cstr src).take n).length) 0

/-- `strcmp`: the end of a list is the terminating NUL. -/
def strcmp : List Nat → List Nat → Int
  | [], [] => 0
  | [], b :: _ => - (b : Int)
  | a :: _, [] => (a : Int)
  | a :: s, b :: t =>
    if a = b then (if a = 0 then 0 else strcmp s t) else (a : Int) - (b : Int)

/-- `isspace` in the C locale: space, `\t`, `\n`, `\v`, `\f`, `\r`. -/
def isSpace (c : Nat) : Bool := c == 32 || (9 ≤ c && c ≤ 13)

/-- `[0-9]`. -/
def isDigit (c : Nat) : Bool := 48 ≤ c && c ≤ 57

/-- `[a-z0-9_]` under `REG_ICASE`. -/
def isKeyChar (c : Nat) : Bool :=
  (97 ≤ c && c ≤ 122) || (65 ≤ c && c ≤ 90) || isDigit c || c == 95

/-- `[a-z0-9_ ]` under `REG_ICASE`. -/
def isStrChar (c : Nat) : Bool := isKeyChar c || c == 32

/-- Bounds of `long` (64 bits) and the width of `int`. -/
def LONG_MAX : Int := 2 ^ 63 - 1

def LONG_MIN : Int := - 2 ^ 63

/-- Conversion of a `long` to `int`: the low-order 32 bits, two's complement. -/
def wrap32 (n : Int) : Int := (n + 2 ^ 31) % 2 ^ 32 - 2 ^ 31

/-- `strtol(s, NULL, 10)` of the C library: leading white space, an optional
sign, the decimal digits that follow; the result saturates at the bounds of
`long`. -/
def strtol (s : List Nat) : Int :=
  let s1 := s.dropWhile isSpace
  let neg := s1.head? == some 45
  let s2 := if s1.head? == some 45 || s1.head? == some 43 then s1.drop 1 else s1
  let mag : Nat := (s2.takeWhile isDigit).foldl (fun a d => 10 * a + (d - 48)) 0
  let v : Int := if neg then - (mag : Int) else (mag : Int)
  if v > LONG_MAX then LONG_MAX else if v < LONG_MIN then LONG_MIN else v

/-- `atoi(s)` of the C library the source is linked with (glibc), which is
`(int) strtol(s, NULL, 10)`. -/
def atoi (s : List Nat) : Int := wrap32 (strtol (cstr s))

/-- The four bytes of an `int` object holding `n` (little-endian). -/
def int_bytes (n : Int) : List Nat :=
  let u := (n % 2 ^ 32).toNat
  [u % 256, u / 256 % 256, u / 65536 % 256, u / 16777216 % 256]

/-- The `int` read back from the first four bytes of a block. -/
def int_of_bytes (b : List Nat) : Int :=
  wrap32 ((b.getD 0 0 + 256 * b.getD 1 0 + 65536 * b.getD 2 0 + 16777216 * b.getD 3 0 : Nat) : Int)

/-! ## Error codes and constants (`yaml_parser.h`, `yaml_parser.c`) -/

def YML_INVALID_POINTER : Int := -1

def YML_NOT_ENOUGH_MEMORY : Int := -2

def YML_INVALID_FILE : Int := -3

def YML_FILE_ERROR : Int := -4

def YML_SEM_ERROR : Int := -5

def YML_ALREADY_EXECUTED : Int := -6

def YML_INT_TYPE : Int := 1

def YML_STRING_TYPE : Int := 2

def NOT_EXECUTED : Int := 0

def EXECUTED : Int := 1

abbrev MAP_SIZE : Nat := 256

/-! ## Data structures -/

/-- One cell of a chain; the `next` pointer is the tail of the list holding the
cell. `key` is the stored C string without its terminator, `value` the `size`
bytes of the stored block. -/
structure yml_hash_map_elem where
  value : List Nat
  key : List Nat
  size : Nat
deriving DecidableEq, Repr

/-- The table: `MAP_SIZE` chains. -/
structure yml_hash_map where
  elems : Fin MAP_SIZE → List yml_hash_map_elem

/-- The reader. `mutex` is the counter of the semaphore. -/
structure ymlParser where
  mutex : Nat
  content : List Nat
  map : yml_hash_map
  executed : Int

/-! ## The hash function and the table -/

/-- The loop of `str_hashfun` on words of `w` bits: `h = 37 * h + *p` until the
terminating NUL. -/
def str_hashfun_loop (w : Nat) : Nat → List Nat → Nat
  | h, [] => h
  | h, c :: s => if c = 0 then h else str_hashfun_loop w ((37 * h + c) % 2 ^ w) s

/-- `str_hashfun` with a `size_t` of 64 bits. -/
def str_hashfun (s : List Nat) : Nat := str_hashfun_loop 64 0 s

/-- The bucket of a key: `str_hashfun(key) % MAP_SIZE`. -/
def bucket (key : List Nat) : Fin MAP_SIZE :=
  ⟨str_hashfun key % MAP_SIZE, Nat.mod_lt _ (by decide)⟩

/-- The walk of `hashmap_insert` on a non-empty chain: follow `next` up to the
last cell and link the new cell after it. -/
def append_tail (node : yml_hash_map_elem) : List yml_hash_map_elem → List yml_hash_map_elem
  | [] => [node]
  | [e] => [e, node]
  | e :: e1 :: rest => e :: append_tail node (e1 :: rest)

/-- `hashmap_insert`: the new cell becomes the head of an empty chain and is
linked after the last cell of a non-empty one; the key and the first
`elem_size` bytes of the value are copied. The result is the returned `int`
and the table after the call. -/
def hashmap_insert (hash_map : yml_hash_map) (key value : List Nat) (elem_size : Nat) :
    Int × yml_hash_map :=
  let index := bucket key
  let node : yml_hash_map_elem := ⟨memcpy (List.replicate elem_size 0) value elem_size,
    cstr key, elem_size⟩
  let chain :=
    match hash_map.elems index with
    | [] => [node]
    | e :: rest => append_tail node (e :: rest)
  (1, ⟨Function.update hash_map.elems index chain⟩)

/-- The loop of `get`: the first cell of the chain whose key compares equal. -/
def chain_find (key : List Nat) : List yml_hash_map_elem → Option yml_hash_map_elem
  | [] => none
  | e :: rest => if strcmp e.key key ≠ 0 then chain_find key rest else some e

/-- `get`. The result is the returned `int` and the destination after the call;
there is no result when the null key is dereferenced by `str_hashfun`. -/
def get (parser : Option ymlParser) (key : Option (List Nat)) (buffer : Option (List Nat)) :
    Option (Int × Option (List Nat)) :=
  match parser, buffer with
  | none, _ => some (YML_INVALID_POINTER, buffer)
  | some _, none => some (YML_INVALID_POINTER, buffer)
  | some p, some buf =>
    match key with
    | none => none
    | some k =>
      match chain_find k (p.map.elems (bucket k)) with
      | none => some (0, some buf)
      | some elem => some (1, some (memcpy buf elem.value elem.size))

/-! ## The line matcher: `regexec` on the two patterns of the source

`regexec` returns the leftmost match of the pattern in the string and, among
the matches that start there, the longest. In both patterns the pieces that
follow each other accept disjoint sets of bytes (key bytes, white space, the
colon, the sign, digits, the quote), so the match that starts at a given
position is the one that takes each run whole. -/

/-- One `regmatch_t`: start and end offsets of a group. -/
structure regmatch_t where
  rm_so : Nat
  rm_eo : Nat
deriving DecidableEq, Repr

/-- The entries of `matches` the source reads: `matches[0]` (the whole match),
`matches[KEY_GROUP]` and `matches[VALUE_GROUP]`. -/
structure regmatches where
  whole : regmatch_t
  key : regmatch_t
  value : regmatch_t
deriving DecidableEq, Repr

/-- The two patterns compiled by `reg_apply_func`:
`([a-z0-9_]+)\s*:\s*"([a-z0-9_ ]+)"(\r?\n)*` and
`([a-z0-9_]+)\s*:\s*(-?[0-9]+)(\r?\n)*`, with `REG_EXTENDED | REG_ICASE`. -/
inductive Regex where
  | YML_STRING_REGEX
  | YML_INT_REGEX
deriving DecidableEq, Repr

/-- Length of the longest run of bytes satisfying `p` at the head of `s`. -/
def run_len (p : Nat → Bool) (s : List Nat) : Nat := (s.takeWhile p).length

/-- Length matched by `(\r?\n)*` at the head of `s`. -/
def newlines_len : List Nat → Nat
  | [] => 0
  | c :: rest =>
    if c = 10 then 1 + newlines_len rest
    else
      match rest with
      | [] => 0
      | d :: rest1 => if c = 13 ∧ d = 10 then 2 + newlines_len rest1 else 0

/-- The value part of the integer pattern at the head of `s`: `(-?[0-9]+)`.
The result is the length of the group. -/
def int_value_len (s : List Nat) : Option Nat :=
  let sign := if s.head? = some 45 then 1 else 0
  let d := run_len isDigit (s.drop sign)
  if d = 0 then none else some (sign + d)

/-- The value part of the string pattern at the head of `s`:
`"([a-z0-9_ ]+)"`. The result is the length of the group (without quotes). -/
def string_value_len (s : List Nat) : Option Nat :=
  match s with
  | 34 :: s1 =>
    let n := run_len isStrChar s1
    if n = 0 then none
    else if (s1.drop n).head? = some 34 then some n else none
  | _ => none

/-- The match of a pattern that starts at the head of `s`, if there is one. -/
def match_here (reg : Regex) (s : List Nat) : Option regmatches :=
  let k := run_len isKeyChar s
  if k = 0 then none
  else
    let w1 := run_len isSpace (s.drop k)
    match s.drop (k + w1) with
    | 58 :: s2 =>
      let w2 := run_len isSpace s2
      let vpos := k + w1 + 1 + w2
      match reg with
      | Regex.YML_INT_REGEX =>
        match int_value_len (s2.drop w2) with
        | none => none
        | some n =>
          some ⟨⟨0, vpos + n + newlines_len (s2.drop (w2 + n))⟩, ⟨0, k⟩, ⟨vpos, vpos + n⟩⟩
      | Regex.YML_STRING_REGEX =>
        match string_value_len (s2.drop w2) with
        | none => none
        | some n =>
          some ⟨⟨0, vpos + n + 2 + newlines_len (s2.drop (w2 + n + 2))⟩, ⟨0, k⟩,
            ⟨vpos + 1, vpos + 1 + n⟩⟩
    | _ => none

/-- Offsets moved by `off`. -/
def regmatches.shift (m : regmatches) (off : Nat) : regmatches :=
  ⟨⟨m.whole.rm_so + off, m.whole.rm_eo + off⟩, ⟨m.key.rm_so + off, m.key.rm_eo + off⟩,
    ⟨m.value.rm_so + off, m.value.rm_eo + off⟩⟩

/-- The search of `regexec`: the first position, `off` bytes after the start
of the string, where a match starts. -/
def regexec_from (reg : Regex) : List Nat → Nat → Option regmatches
  | [], _ => none
  | c :: s, off =>
    match match_here reg (c :: s) with
    | some m => some (m.shift off)
    | none => regexec_from reg s (off + 1)

/-- `regexec(&regex, cursor, max_group, matches, 0)`: `none` is `REG_NOMATCH`. -/
def regexec (reg : Regex) (cursor : List Nat) : Option regmatches :=
  regexec_from reg (cstr cursor) 0

/-! ## The parse -/

/-- The loop of `reg_apply_func`: at most `n` more iterations, each one a
`regexec` at the cursor, a call of `func` and a move of the cursor to the end
of the match. -/
def reg_apply_loop {σ : Type} (reg : Regex) (func : σ → List Nat → regmatches → Int → σ × Int) :
    Nat → List Nat → σ → Int → σ × Int
  | 0, _, context, acc => (context, acc)
  | n + 1, cursor, context, acc =>
    match regexec reg cursor with
    | none => (context, acc)
    | some m =>
      reg_apply_loop reg func n (cursor.drop m.whole.rm_eo) (func context cursor m acc).1
        (func context cursor m acc).2

/-- `reg_apply_func`: `max_matches = strlen(str) / 3` iterations at most. The
state of `context` after the calls is returned with the accumulator. -/
def reg_apply_func {σ : Type} (str : List Nat) (reg : Regex)
    (func : σ → List Nat → regmatches → Int → σ × Int) (context : σ) (acc : Int) : σ × Int :=
  reg_apply_loop reg func (strlen str / 3) str context acc

/-- The block `char key[len + 1]` (or `value`) of `insert_keys_values`:
`strncpy` of `len` bytes from `str + rm_so`, then a NUL. -/
def extract (str : List Nat) (g : regmatch_t) : List Nat :=
  strncpy (str.drop g.rm_so) (g.rm_eo - g.rm_so) ++ [0]

/-- `insert_keys_values`: the table after the call and the new accumulator. -/
def insert_keys_values (map : yml_hash_map) (str : List Nat) (m : regmatches)
    (acc : Int) : yml_hash_map × Int :=
  if acc < 0 then (map, acc)
  else
    let key := extract str m.key
    let value := extract str m.value
    let r :=
      if acc = YML_INT_TYPE then hashmap_insert map key (int_bytes (atoi value)) 4
      else hashmap_insert map key value (strlen value + 1)
    if r.1 < 0 then (r.2, -1) else (r.2, acc)

/-- `init_yml_parser` (written `initYmlParser`) on a file that was opened and
read: `text` is the content of the file. The table is the block `malloc`
returns, which the source never clears: its chains are whatever the words of
that block designate, `block`; they are all empty only when the block happens
to be zero-filled. -/
def initYmlParser (text : List Nat) (block : yml_hash_map) : ymlParser :=
  ⟨1, text, block, NOT_EXECUTED⟩

/-- `sem_wait`: the counter after the call; no result when the call blocks. -/
def sem_wait (mutex : Nat) : Option Nat := if mutex = 0 then none else some (mutex - 1)

/-- `sem_post`. -/
def sem_post (mutex : Nat) : Nat := mutex + 1

/-- `execParser`: the returned `int` and the reader after the call; no result
when `sem_wait` blocks. -/
def execParser (parser : ymlParser) : Option (Int × ymlParser) :=
  match sem_wait parser.mutex with
  | none => none
  | some mutex =>
    if parser.executed = EXECUTED then some (YML_ALREADY_EXECUTED, { parser with mutex := mutex })
    else
      let r1 := reg_apply_func parser.content Regex.YML_INT_REGEX insert_keys_values parser.map
        YML_INT_TYPE
      if r1.2 < 0 then some (-1, { parser with mutex := mutex, map := r1.1 })
      else
        let r2 := reg_apply_func parser.content Regex.YML_STRING_REGEX insert_keys_values r1.1
          YML_STRING_TYPE
        if r2.2 < 0 then some (-1, { parser with mutex := mutex, map := r2.1 })
        else some (1, { parser with mutex := sem_post mutex, map := r2.1, executed := EXECUTED })

/-- `free_parser` (written `freeParser`): the returned `int`; no result when
`sem_wait` blocks. The table, the text and the reader are released, so no
reader is left after the call. -/
def freeParser (parser : Option ymlParser) : Option Int :=
  match parser with
  | none => some YML_INVALID_POINTER
  | some p =>
    match sem_wait p.mutex with
    | none => none
    | some _ => some 1

/-! ## What the line matcher emits -/

/-- A triple handed over by the line matcher: key, raw value and kind
(`YML_INT_TYPE` or `YML_STRING_TYPE`), as C strings without terminator. -/
structure Triple where
  key : List Nat
  value : List Nat
  kind : Int
deriving DecidableEq, Repr

/-- A callback for `reg_apply_func` that records the key and the value
extracted as in `insert_keys_values`, and the kind. -/
def record_triple (ts : List Triple) (str : List Nat) (m : regmatches) (acc : Int) :
    List Triple × Int :=
  (ts ++ [⟨cstr (extract str m.key), cstr (extract str m.value), acc⟩], acc)

/-- The triples of one pass. -/
def pass_triples (text : List Nat) (reg : Regex) (kind : Int) : List Triple :=
  (reg_apply_func text reg record_triple [] kind).1

/-- The triples in the order `execParser` observes them: the integer pass,
then the string pass. -/
def emitted (text : List Nat) : List Triple :=
  pass_triples text Regex.YML_INT_REGEX YML_INT_TYPE ++
    pass_triples text Regex.YML_STRING_REGEX YML_STRING_TYPE

/-! ## Auxiliary definitions used in the statements and proofs -/

/-- The table with one more cell linked at the end of the chain of its key. -/
def add_elem (m : yml_hash_map) (e : yml_hash_map_elem) : yml_hash_map :=
  ⟨Function.update m.elems (bucket e.key) (m.elems (bucket e.key) ++ [e])⟩

/-- The table without any cell. -/
def empty_map : yml_hash_map := ⟨fun _ => []⟩

/-- The block `insert_keys_values` hands to `hashmap_insert` for a triple: the
four bytes of `atoi(value)` in the integer pass, the string with its
terminator otherwise. -/
def stored_value (t : Triple) : List Nat :=
  if t.kind = YML_INT_TYPE then int_bytes (atoi t.value) else t.value ++ [0]

/-- The cell created for a triple. -/
def stored_elem (t : Triple) : yml_hash_map_elem :=
  ⟨stored_value t, t.key, (stored_value t).length⟩

/-- A sequence of `hashmap_insert` calls, each given by key, value block and
size, applied to a table. -/
def insert_all (m : yml_hash_map) (calls : List (List Nat × List Nat × Nat)) : yml_hash_map :=
  calls.foldl (fun acc c => (hashmap_insert acc c.1 c.2.1 c.2.2).2) m

/-- The table `execParser` builds from the empty one: one cell per emitted
triple, in the order of observation. -/
def parsed_map (text : List Nat) : yml_hash_map :=
  ((emitted text).map stored_elem).foldl add_elem empty_map

/-- The reader after a first `execParser` on the reader `initYmlParser`
returns for `text` when the table is empty at construction. -/
def parsed (text : List Nat) : ymlParser :=
  ⟨1, text, parsed_map text, EXECUTED⟩

/-- The number a string of decimal digits denotes, digit by digit:
the first digit weighs ten to the number of digits after it. -/
def decimal_value : List Nat → Nat
  | [] => 0
  | d :: ds => (d - 48) * 10 ^ ds.length + decimal_value ds

/-- An integer literal as the grammar has it: an optional leading `-`, then
one or more decimal digits. -/
def is_int_literal (lit : List Nat) : Bool :=
  let ds := if lit.head? = some 45 then lit.drop 1 else lit
  !ds.isEmpty && ds.all isDigit

/-- The mathematical value of an integer literal: negative when the literal
starts with `-`. -/
def literal_value (lit : List Nat) : Int :=
  if lit.head? = some 45 then - (decimal_value (lit.drop 1) : Int)
  else (decimal_value lit : Int)

/-- The 260 calls of the collision scenario: the two-letter keys `aa` to `jz`,
the `i`-th one with the four bytes of the `int` `i`. -/
def calls260 : List (List Nat × List Nat × Nat) :=
  (List.range 260).map (fun i => ([97 + i / 26, 97 + i % 26], int_bytes (i : Int), 4))

/-- The polynomial of the key bytes over the natural numbers: the byte `b_i`
of a key of `n` bytes weighs `37 ^ (n - 1 - i)`. -/
def poly_hash : List Nat → Nat
  | [] => 0
  | b :: bs => b * 37 ^ bs.length + poly_hash bs

/-! ## C strings -/

theorem cstr_cstr (s : List Nat) : cstr (cstr s) = cstr s := by
  unfold cstr
  exact List.takeWhile_idem

theorem cstr_nil : cstr [] = [] := rfl

theorem cstr_cons (c : Nat) (s : List Nat) :
    cstr (c :: s) = if c = 0 then [] else c :: cstr s := by
  unfold cstr
  by_cases h : c = 0
  · simp [h]
  · simp [h, List.takeWhile_cons]

theorem not_zero_of_mem_cstr {s : List Nat} {c : Nat} (h : c ∈ cstr s) : c ≠ 0 := by
  unfold cstr at h
  have := List.mem_takeWhile_imp h
  simpa using this

theorem cstr_eq_self {s : List Nat} (h : ∀ c ∈ s, c ≠ 0) : cstr s = s := by
  unfold cstr
  rw [List.takeWhile_eq_self_iff]
  intro c hc
  simpa using h c hc

theorem cstr_append_zero (s t : List Nat) : cstr (cstr s ++ 0 :: t) = cstr s := by
  induction s with
  | nil => simp [cstr]
  | cons c s ih =>
    rw [cstr_cons]
    by_cases h : c = 0
    · simp [h, cstr]
    · simp only [h, if_false, List.cons_append]
      rw [cstr_cons]
      simp [h, ih]

theorem strcmp_eq_zero_iff (a b : List Nat) : strcmp a b = 0 ↔ cstr a = cstr b := by
  induction a generalizing b with
  | nil =>
    cases b with
    | nil => simp [strcmp]
    | cons b t =>
      rw [cstr_cons]
      by_cases h : b = 0
      · simp [strcmp, h, cstr_nil]
      · simp [strcmp, h, cstr_nil]
  | cons a s ih =>
    cases b with
    | nil =>
      rw [cstr_cons]
      by_cases h : a = 0
      · simp [strcmp, h, cstr_nil]
      · simp [strcmp, h, cstr_nil]
    | cons b t =>
      rw [cstr_cons, cstr_cons]
      unfold strcmp
      by_cases hab : a = b
      · subst hab
        by_cases h : a = 0
        · simp [h]
        · simp [h, ih]
      · by_cases ha : a = 0
        · by_cases hb : b = 0
          · omega
          · simp [hab, ha, hb]
            omega
        · by_cases hb : b = 0
          · simp [hab, ha, hb]
          · simp [hab, ha, hb]
            omega

theorem str_hashfun_loop_cstr (w h : Nat) (s : List Nat) :
    str_hashfun_loop w h (cstr s) = str_hashfun_loop w h s := by
  induction s generalizing h with
  | nil => rfl
  | cons c s ih =>
    rw [cstr_cons]
    by_cases hc : c = 0
    · simp [hc, str_hashfun_loop]
    · simp [hc, str_hashfun_loop, ih]

theorem bucket_cstr (s : List Nat) : bucket (cstr s) = bucket s := by
  simp [bucket, str_hashfun, str_hashfun_loop_cstr]

theorem bucket_congr {a b : List Nat} (h : cstr a = cstr b) : bucket a = bucket b := by
  rw [← bucket_cstr a, ← bucket_cstr b, h]

/-! ## The table: insertion appends, lookup stops at the first cell -/

theorem append_tail_eq (node : yml_hash_map_elem) (l : List yml_hash_map_elem) :
    append_tail node l = l ++ [node] := by
  induction l with
  | nil => rfl
  | cons e rest ih =>
    cases rest with
    | nil => rfl
    | cons e1 rest1 =>
      simp only [append_tail, List.cons_append]
      rw [ih]
      rfl

theorem hashmap_insert_eq (m : yml_hash_map) (key value : List Nat) (n : Nat) :
    hashmap_insert m key value n = (1, add_elem m ⟨value.take n, cstr key, n⟩) := by
  unfold hashmap_insert add_elem
  simp only [bucket_cstr, memcpy, List.drop_replicate, Nat.sub_self, List.replicate_zero,
    List.append_nil]
  cases h : m.elems (bucket key) with
  | nil => simp
  | cons e rest => simp [append_tail_eq]

theorem chain_find_eq_find (k : List Nat) (l : List yml_hash_map_elem) :
    chain_find k l = l.find? (fun e => decide (cstr e.key = cstr k)) := by
  induction l with
  | nil => rfl
  | cons e rest ih =>
    unfold chain_find
    by_cases h : cstr e.key = cstr k
    · have h0 : strcmp e.key k = 0 := (strcmp_eq_zero_iff _ _).2 h
      simp [h0, h]
    · have h0 : strcmp e.key k ≠ 0 := fun hh => h ((strcmp_eq_zero_iff _ _).1 hh)
      simp [h0, h, ih]

theorem chain_find_add_elem (m : yml_hash_map) (e : yml_hash_map_elem) (k : List Nat) :
    chain_find k ((add_elem m e).elems (bucket k)) =
      (chain_find k (m.elems (bucket k))).or (if cstr e.key = cstr k then some e else none) := by
  show chain_find k (Function.update m.elems (bucket e.key) (m.elems (bucket e.key) ++ [e])
    (bucket k)) = _
  by_cases hb : bucket k = bucket e.key
  · rw [hb, Function.update_same, chain_find_eq_find, chain_find_eq_find, List.find?_append]
    by_cases h : cstr e.key = cstr k <;> simp [h]
  · have h : cstr e.key ≠ cstr k := fun hh => hb (bucket_congr hh).symm
    simp only [Function.update_noteq hb, h, if_false, Option.or_none]

theorem chain_find_foldl_add_elem (l : List yml_hash_map_elem) (m : yml_hash_map)
    (k : List Nat) :
    chain_find k ((l.foldl add_elem m).elems (bucket k)) =
      (chain_find k (m.elems (bucket k))).or
        (l.find? (fun e => decide (cstr e.key = cstr k))) := by
  induction l generalizing m with
  | nil => simp
  | cons e rest ih =>
    rw [List.foldl_cons, ih, chain_find_add_elem, List.find?_cons]
    by_cases h : cstr e.key = cstr k
    · simp [h]
      cases chain_find k (m.elems (bucket k)) <;> simp
    · simp [h]

/-! ## The two passes insert the emitted triples in order -/

theorem take_strlen_succ {s : List Nat} (h : 0 ∈ s) :
    s.take (strlen s + 1) = cstr s ++ [0] := by
  induction s with
  | nil => simp at h
  | cons c s ih =>
    unfold strlen
    rw [cstr_cons]
    by_cases hc : c = 0
    · simp [hc]
    · have hs : 0 ∈ s := by
        rcases List.mem_cons.1 h with h0 | h0
        · exact absurd h0.symm hc
        · exact h0
      have := ih hs
      unfold strlen at this
      simp [hc, this]

theorem zero_mem_extract (str : List Nat) (g : regmatch_t) : 0 ∈ extract str g := by
  simp [extract]

theorem insert_keys_values_eq (map : yml_hash_map) (str : List Nat) (m : regmatches)
    (acc : Int) (h : 0 ≤ acc) :
    insert_keys_values map str m acc =
      (add_elem map (stored_elem ⟨cstr (extract str m.key), cstr (extract str m.value), acc⟩),
        acc) := by
  unfold insert_keys_values
  have h1 : ¬ acc < 0 := by omega
  simp only [h1, if_false, hashmap_insert_eq]
  by_cases hk : acc = YML_INT_TYPE
  · simp [hk, stored_elem, stored_value, atoi, cstr_cstr, int_bytes]
  · have ht := take_strlen_succ (zero_mem_extract str m.value)
    unfold strlen at ht
    simp [hk, stored_elem, stored_value, strlen, ht]

theorem record_loop (reg : Regex) (n : Nat) (cursor : List Nat) (ts : List Triple)
    (acc : Int) :
    reg_apply_loop reg record_triple n cursor ts acc =
      (ts ++ (reg_apply_loop reg record_triple n cursor [] acc).1, acc) := by
  induction n generalizing cursor ts with
  | zero => simp [reg_apply_loop]
  | succ n ih =>
    unfold reg_apply_loop
    cases hm : regexec reg cursor with
    | none => simp
    | some m =>
      simp only [record_triple]
      rw [ih, ih _ ([] ++ _)]
      simp

theorem insert_loop (reg : Regex) (n : Nat) (cursor : List Nat) (map : yml_hash_map)
    (acc : Int) (h : 0 ≤ acc) :
    reg_apply_loop reg insert_keys_values n cursor map acc =
      (((reg_apply_loop reg record_triple n cursor [] acc).1.map stored_elem).foldl
        add_elem map, acc) := by
  induction n generalizing cursor map with
  | zero => simp [reg_apply_loop]
  | succ n ih =>
    unfold reg_apply_loop
    cases hm : regexec reg cursor with
    | none => simp
    | some m =>
      simp only [insert_keys_values_eq _ _ _ _ h]
      rw [ih, record_loop reg n _ (record_triple [] cursor m acc).1]
      simp [record_triple]

theorem reg_apply_func_insert (text : List Nat) (reg : Regex) (map : yml_hash_map)
    (acc : Int) (h : 0 ≤ acc) :
    reg_apply_func text reg insert_keys_values map acc =
      (((pass_triples text reg acc).map stored_elem).foldl add_elem map, acc) := by
  unfold reg_apply_func pass_triples reg_apply_func
  exact insert_loop reg _ text map acc h

theorem execParser_init (text : List Nat) :
    execParser (initYmlParser text empty_map) = some (1, parsed text) := by
  unfold execParser initYmlParser
  simp only [sem_wait]
  rw [reg_apply_func_insert _ _ _ _ (by decide), reg_apply_func_insert _ _ _ _ (by decide)]
  simp [NOT_EXECUTED, EXECUTED, YML_INT_TYPE, YML_STRING_TYPE, sem_post, parsed, parsed_map,
    emitted, empty_map]

/-- Every recorded triple holds C strings (no NUL) and the kind of its pass. -/
theorem record_loop_mem (reg : Regex) (n : Nat) (cursor : List Nat) (acc : Int) (t : Triple)
    (ht : t ∈ (reg_apply_loop reg record_triple n cursor [] acc).1) :
    cstr t.key = t.key ∧ cstr t.value = t.value ∧ t.kind = acc := by
  induction n generalizing cursor with
  | zero => simp [reg_apply_loop] at ht
  | succ n ih =>
    unfold reg_apply_loop at ht
    cases hm : regexec reg cursor with
    | none => simp [hm] at ht
    | some m =>
      simp only [hm, record_triple] at ht
      rw [record_loop] at ht
      simp only [List.nil_append, List.mem_append, List.mem_singleton] at ht
      rcases ht with h1 | h1
      · subst h1
        simp [cstr_cstr]
      · exact ih _ h1

theorem emitted_mem (text : List Nat) (t : Triple) (ht : t ∈ emitted text) :
    cstr t.key = t.key ∧ cstr t.value = t.value ∧
      (t.kind = YML_INT_TYPE ∨ t.kind = YML_STRING_TYPE) := by
  unfold emitted pass_triples reg_apply_func at ht
  rcases List.mem_append.1 ht with h | h
  · have := record_loop_mem _ _ _ _ _ h
    exact ⟨this.1, this.2.1, Or.inl this.2.2⟩
  · have := record_loop_mem _ _ _ _ _ h
    exact ⟨this.1, this.2.1, Or.inr this.2.2⟩

theorem find_congr_mem {α : Type} (p q : α → Bool) (l : List α)
    (h : ∀ x ∈ l, p x = q x) : l.find? p = l.find? q := by
  induction l with
  | nil => rfl
  | cons a l ih =>
    have ha := h a (List.mem_cons_self a l)
    have hl := ih (fun x hx => h x (List.mem_cons_of_mem a hx))
    simp [List.find?_cons, ha, hl]

theorem find_eq_head_filter {α : Type} (p : α → Bool) (l : List α) :
    l.find? p = (l.filter p).head? := by
  induction l with
  | nil => rfl
  | cons a l ih =>
    by_cases ha : p a
    · rw [List.find?_cons_of_pos _ ha, List.filter_cons_of_pos ha, List.head?_cons]
    · rw [List.find?_cons_of_neg _ ha, List.filter_cons_of_neg ha, ih]

/-- The lookup in the parsed table is the first emitted triple with the key. -/
theorem chain_find_parsed (text k : List Nat) :
    chain_find k ((parsed_map text).elems (bucket k)) =
      ((emitted text).find? (fun t => decide (t.key = cstr k))).map stored_elem := by
  unfold parsed_map
  rw [chain_find_foldl_add_elem, List.find?_map]
  simp only [empty_map, chain_find, Option.none_or]
  congr 1
  apply find_congr_mem
  intro t ht
  simp [stored_elem, (emitted_mem text t ht).1]

/-- What `get` does after the parse of `text`: first emitted triple wins. -/
theorem get_parsed (text k buf : List Nat) :
    get (some (parsed text)) (some k) (some buf) =
      match (emitted text).find? (fun t => decide (t.key = cstr k)) with
      | none => some (0, some buf)
      | some t => some (1, some (stored_value t ++ buf.drop (stored_value t).length)) := by
  unfold get
  simp only [parsed, chain_find_parsed]
  cases (emitted text).find? (fun t => decide (t.key = cstr k)) with
  | none => rfl
  | some t => simp [stored_elem, memcpy]

/-! ## Decimal conversion -/

theorem foldl_decimal (ds : List Nat) (a : Nat) :
    ds.foldl (fun a d => 10 * a + (d - 48)) a = a * 10 ^ ds.length + decimal_value ds := by
  induction ds generalizing a with
  | nil => simp [decimal_value]
  | cons d ds ih =>
    rw [List.foldl_cons, ih]
    simp only [decimal_value, List.length_cons, pow_succ]
    ring

theorem wrap32_of_range (n : Int) (hlo : -2 ^ 31 ≤ n) (hhi : n ≤ 2 ^ 31 - 1) : wrap32 n = n := by
  unfold wrap32
  norm_num at hlo hhi ⊢
  omega

theorem isDigit_ne_zero {c : Nat} (h : isDigit c = true) : c ≠ 0 := by
  simp [isDigit] at h
  omega

theorem isDigit_not_space {c : Nat} (h : isDigit c = true) : isSpace c = false := by
  simp [isDigit] at h
  simp [isSpace]
  omega

/-- On digits only, `strtol` before saturation is the decimal value. -/
theorem strtol_digits (ds : List Nat) (hne : ds ≠ []) (hd : ∀ d ∈ ds, isDigit d = true)
    (neg : Bool) :
    strtol ((if neg then [45] else []) ++ ds) =
      (let v : Int := if neg then - (decimal_value ds : Int) else (decimal_value ds : Int)
       if v > LONG_MAX then LONG_MAX else if v < LONG_MIN then LONG_MIN else v) := by
  obtain ⟨d, ds1, rfl⟩ := List.exists_cons_of_ne_nil hne
  have hd0 : isDigit d = true := hd d (List.mem_cons_self _ _)
  have hsp : isSpace d = false := isDigit_not_space hd0
  have h45 : d ≠ 45 := by
    simp [isDigit] at hd0
    omega
  have h43 : d ≠ 43 := by
    simp [isDigit] at hd0
    omega
  have htw : List.takeWhile isDigit (d :: ds1) = d :: ds1 :=
    List.takeWhile_eq_self_iff.2 hd
  cases neg with
  | true =>
    have hdw : List.dropWhile isSpace (45 :: d :: ds1) = 45 :: d :: ds1 := by
      simp [List.dropWhile_cons, isSpace]
    unfold strtol
    simp only [if_true, List.singleton_append]
    rw [hdw]
    simp only [List.head?_cons, beq_self_eq_true, Bool.true_or, if_true, List.drop_one,
      List.tail_cons, htw, foldl_decimal]
    simp
  | false =>
    have hdw : List.dropWhile isSpace (d :: ds1) = d :: ds1 := by
      simp [List.dropWhile_cons, hsp]
    unfold strtol
    simp only [Bool.false_eq_true, if_false, List.nil_append]
    rw [hdw]
    have hb1 : (some d == some 45) = false := by simp [h45]
    have hb2 : (some d == some 43) = false := by simp [h43]
    simp only [List.head?_cons, hb1, hb2, Bool.false_or, htw, foldl_decimal]
    simp [htw]

theorem is_int_literal_split {lit : List Nat} (h : is_int_literal lit = true) :
    ∃ (neg : Bool) (ds : List Nat), lit = (if neg then [45] else []) ++ ds ∧ ds ≠ [] ∧
      (∀ d ∈ ds, isDigit d = true) ∧
      literal_value lit = (if neg then - (decimal_value ds : Int) else (decimal_value ds : Int)) := by
  unfold is_int_literal at h
  by_cases h45 : lit.head? = some 45
  · cases lit with
    | nil => simp at h45
    | cons c ds =>
      simp only [List.head?_cons, Option.some.injEq] at h45
      subst h45
      simp only [List.head?_cons, if_true, List.drop_one, List.tail_cons, Bool.and_eq_true,
        Bool.not_eq_true', List.isEmpty_eq_false, List.all_eq_true] at h
      refine ⟨true, ds, by simp, ?_, h.2, by simp [literal_value]⟩
      intro hnil
      simp [hnil] at h
  · simp only [h45, if_false, Bool.and_eq_true, Bool.not_eq_true', List.all_eq_true] at h
    refine ⟨false, lit, by simp, ?_, h.2, by simp [literal_value, h45]⟩
    intro hnil
    simp [hnil] at h

/-- In the range of `int`, `atoi` of a literal is its mathematical value. -/
theorem atoi_literal (lit : List Nat) (h : is_int_literal lit = true)
    (hlo : -2 ^ 31 ≤ literal_value lit) (hhi : literal_value lit ≤ 2 ^ 31 - 1) :
    atoi lit = literal_value lit := by
  obtain ⟨neg, ds, rfl, hne, hd, hv⟩ := is_int_literal_split h
  have hc : cstr ((if neg then [45] else []) ++ ds) = (if neg then [45] else []) ++ ds := by
    apply cstr_eq_self
    intro c hc
    rcases List.mem_append.1 hc with h1 | h1
    · cases neg <;> simp at h1
      omega
    · exact isDigit_ne_zero (hd c h1)
  unfold atoi
  rw [hc, strtol_digits ds hne hd neg]
  rw [hv] at hlo hhi
  have h1 : ¬ (if neg then - (decimal_value ds : Int) else (decimal_value ds : Int)) > LONG_MAX := by
    unfold LONG_MAX
    norm_num at hhi ⊢
    omega
  have h2 : ¬ (if neg then - (decimal_value ds : Int) else (decimal_value ds : Int)) < LONG_MIN := by
    unfold LONG_MIN
    norm_num at hlo ⊢
    omega
  rw [if_neg h1, if_neg h2, hv]
  exact wrap32_of_range _ hlo hhi

/-- Reading back the four bytes written for an `int` in range gives the `int`. -/
theorem int_of_bytes_int_bytes (n : Int) (rest : List Nat) (hlo : -2 ^ 31 ≤ n)
    (hhi : n ≤ 2 ^ 31 - 1) : int_of_bytes (int_bytes n ++ rest) = n := by
  unfold int_of_bytes int_bytes wrap32
  norm_num at hlo hhi ⊢
  omega

/-! ## Properties of the parse and of the lookup -/

theorem find_of_filter_eq_singleton (text k : List Nat) (t : Triple)
    (h : (emitted text).filter (fun t => decide (t.key = k)) = [t]) :
    cstr k = k ∧ (emitted text).find? (fun t => decide (t.key = cstr k)) = some t := by
  have hmem : t ∈ (emitted text).filter (fun t => decide (t.key = k)) := by
    rw [h]
    exact List.mem_singleton_self t
  have hk : t.key = k := by simpa using (List.mem_filter.1 hmem).2
  have hc : cstr k = k := by
    rw [← hk]
    exact (emitted_mem text t (List.mem_filter.1 hmem).1).1
  refine ⟨hc, ?_⟩
  rw [hc, find_eq_head_filter, h]
  rfl

theorem eq_empty_map (block : yml_hash_map) (h : ∀ i, block.elems i = []) :
    block = empty_map := by
  cases block with
  | mk elems =>
    simp only [empty_map, yml_hash_map.mk.injEq]
    funext i
    exact h i

/-- Whatever chains the table holds at construction, `execParser` returns 1
after linking the cells of the emitted triples behind them. -/
theorem execParser_init_block (text : List Nat) (block : yml_hash_map) :
    execParser (initYmlParser text block) =
      some (1, ⟨1, text, ((emitted text).map stored_elem).foldl add_elem block, EXECUTED⟩) := by
  unfold execParser initYmlParser
  simp only [sem_wait]
  rw [reg_apply_func_insert _ _ _ _ (by decide), reg_apply_func_insert _ _ _ _ (by decide)]
  simp [NOT_EXECUTED, EXECUTED, YML_INT_TYPE, YML_STRING_TYPE, sem_post, emitted]

/-- A cell found for a key in the table as it is at construction is what `get`
copies after the parse, whatever the text holds for that key. -/
theorem get_stale_cell (text k buf : List Nat) (block : yml_hash_map) (e : yml_hash_map_elem)
    (h : chain_find k (block.elems (bucket k)) = some e) :
    ∃ p, execParser (initYmlParser text block) = some (1, p) ∧
      get (some p) (some k) (some buf) = some (1, some (memcpy buf e.value e.size)) := by
  refine ⟨_, execParser_init_block text block, ?_⟩
  unfold get
  simp only [chain_find_foldl_add_elem, h]
  rfl

/-- On a table that is empty at construction: when the line matcher emits
exactly one triple with key `k` and that triple is a string match with quoted
content `v`, `execParser` returns 1, and `get` for `k` then returns 1 and
writes the bytes of `v` followed by one NUL (`|v| + 1` bytes, no quotes) at
the start of the destination, whose other bytes keep their values. -/
theorem clean_table_unique_string_key (text k v buf : List Nat) (block : yml_hash_map)
    (hclean : ∀ i, block.elems i = [])
    (h : (emitted text).filter (fun t => decide (t.key = k)) = [⟨k, v, YML_STRING_TYPE⟩])
    (hbuf : v.length + 1 ≤ buf.length) :
    ∃ p, execParser (initYmlParser text block) = some (1, p) ∧
      get (some p) (some k) (some buf) = some (1, some (v ++ [0] ++ buf.drop (v.length + 1))) ∧
      (v ++ [0] ++ buf.drop (v.length + 1)).length = buf.length := by
  have hb := eq_empty_map block hclean
  subst hb
  obtain ⟨hc, hf⟩ := find_of_filter_eq_singleton text k _ h
  refine ⟨parsed text, execParser_init text, ?_, ?_⟩
  · rw [get_parsed, hf]
    simp [stored_value, YML_STRING_TYPE, YML_INT_TYPE]
  · simp
    omega

/-- C1 (behaviour of the code): the table is not cleared at construction. On
the sample text, whose only triple for `name` is the string `srv1`, a reader
whose bucket of `name` already holds a cell keeps that cell in front of the
new one: `execParser` returns 1 and `get` for `name` copies the four bytes
`old` and NUL of the cell found at construction, not `srv1` and NUL. -/
theorem c1_stale_cell_shadows_string :
    (emitted (bytes "name: \"srv1\"\nslots: 4\n")).filter
        (fun t => decide (t.key = bytes "name")) =
        [⟨bytes "name", bytes "srv1", YML_STRING_TYPE⟩] ∧
      (execParser (initYmlParser (bytes "name: \"srv1\"\nslots: 4\n")
          (add_elem empty_map ⟨[111, 108, 100, 0], bytes "name", 4⟩))).map
          (fun r => (r.1, get (some r.2) (some (bytes "name")) (some [7, 7, 7, 7, 7, 7, 7, 7]))) =
        some (1, some (1, some [111, 108, 100, 0, 7, 7, 7, 7])) := by
  refine ⟨by decide, ?_⟩
  decide

/-- On a table that is empty at construction: when the line matcher emits
exactly one triple with key `k` and that triple is an integer match whose
literal (optional leading `-`, then decimal digits) has a value `n` with
`-2^31 ≤ n ≤ 2^31 - 1`, `execParser` returns 1, and `get` for `k` then returns
1 and writes exactly four bytes, the representation of the signed `int` `n`:
reading the destination back as an `int` gives `n`. -/
theorem clean_table_unique_int_key (text k lit buf : List Nat) (block : yml_hash_map)
    (hclean : ∀ i, block.elems i = [])
    (h : (emitted text).filter (fun t => decide (t.key = k)) = [⟨k, lit, YML_INT_TYPE⟩])
    (hlit : is_int_literal lit = true)
    (hlo : -2 ^ 31 ≤ literal_value lit) (hhi : literal_value lit ≤ 2 ^ 31 - 1)
    (hbuf : 4 ≤ buf.length) :
    ∃ p, execParser (initYmlParser text block) = some (1, p) ∧
      get (some p) (some k) (some buf) =
        some (1, some (int_bytes (literal_value lit) ++ buf.drop 4)) ∧
      (int_bytes (literal_value lit)).length = 4 ∧
      (int_bytes (literal_value lit) ++ buf.drop 4).length = buf.length ∧
      int_of_bytes (int_bytes (literal_value lit) ++ buf.drop 4) = literal_value lit := by
  have hb := eq_empty_map block hclean
  subst hb
  obtain ⟨hc, hf⟩ := find_of_filter_eq_singleton text k _ h
  refine ⟨parsed text, execParser_init text, ?_, by simp [int_bytes], ?_,
    int_of_bytes_int_bytes _ _ hlo hhi⟩
  · rw [get_parsed, hf]
    simp [stored_value, atoi_literal lit hlit hlo hhi, int_bytes]
  · simp [int_bytes]
    omega

/-- C2 (behaviour of the code): the table is not cleared at construction. On
the text `em: 5`, whose only triple for `em` is the integer literal `5`, a
reader whose bucket of `em` already holds a cell keeps that cell in front of
the new one: `execParser` returns 1 and `get` for `em` copies the `int` 9 of
the cell found at construction, not 5. -/
theorem c2_stale_cell_shadows_int :
    (emitted (bytes "em: 5\n")).filter (fun t => decide (t.key = bytes "em")) =
        [⟨bytes "em", bytes "5", YML_INT_TYPE⟩] ∧
      is_int_literal (bytes "5") = true ∧ literal_value (bytes "5") = 5 ∧
      (execParser (initYmlParser (bytes "em: 5\n")
          (add_elem empty_map ⟨[9, 0, 0, 0], bytes "em", 4⟩))).map
          (fun r => (r.1, get (some r.2) (some (bytes "em")) (some [7, 7, 7, 7]))) =
        some (1, some (1, some [9, 0, 0, 0])) ∧
      int_of_bytes [9, 0, 0, 0] = 9 := by
  refine ⟨by decide, by decide, by decide, ?_, by decide⟩
  decide

/-- On a table that is empty at construction: after `execParser`, for every
key `k` and destination `buf` (both non-null), `get` returns 1 or 0; it
returns 1 exactly when one of the two passes emitted a triple whose key is the
string `k`, and when it returns 0 the destination is unchanged. -/
theorem clean_table_get_hit_iff_emitted (text k buf : List Nat) (block : yml_hash_map)
    (hclean : ∀ i, block.elems i = []) :
    ∃ p r out, execParser (initYmlParser text block) = some (1, p) ∧
      get (some p) (some k) (some buf) = some (r, some out) ∧
      (r = 1 ∨ r = 0) ∧
      (r = 1 ↔ ∃ t ∈ emitted text, t.key = cstr k) ∧
      (r = 0 ↔ ¬ ∃ t ∈ emitted text, t.key = cstr k) ∧
      (r = 0 → out = buf) := by
  have hb := eq_empty_map block hclean
  subst hb
  cases hf : (emitted text).find? (fun t => decide (t.key = cstr k)) with
  | none =>
    have hn : ¬ ∃ t ∈ emitted text, t.key = cstr k := by
      rintro ⟨t, ht, hk⟩
      have := List.find?_eq_none.1 hf t ht
      simp [hk] at this
    refine ⟨parsed text, 0, buf, execParser_init text, ?_, Or.inr rfl, ?_, ?_, fun _ => rfl⟩
    · rw [get_parsed, hf]
    · simp [hn]
    · simp [hn]
  | some t =>
    have hy : ∃ t ∈ emitted text, t.key = cstr k :=
      ⟨t, List.mem_of_find?_eq_some hf, by simpa using List.find?_some hf⟩
    refine ⟨parsed text, 1, stored_value t ++ buf.drop (stored_value t).length,
      execParser_init text, ?_, Or.inl rfl, ?_, ?_, fun h => absurd h (by decide)⟩
    · rw [get_parsed, hf]
    · simp [hy]
    · simp [hy]

/-- C3 (behaviour of the code): the table is not cleared at construction. On
the sample text no triple has the key `missing`, yet on a reader whose bucket
of `missing` already holds a cell with that key `get` returns 1 after the
parse and overwrites the destination with the bytes of that cell. -/
theorem c3_stale_cell_hit_without_triple :
    (∀ t ∈ emitted (bytes "name: \"srv1\"\nslots: 4\n"), t.key ≠ bytes "missing") ∧
      (execParser (initYmlParser (bytes "name: \"srv1\"\nslots: 4\n")
          (add_elem empty_map ⟨[9, 0, 0, 0], bytes "missing", 4⟩))).map
          (fun r => (r.1, get (some r.2) (some (bytes "missing")) (some [7, 7, 7, 7]))) =
        some (1, some (1, some [9, 0, 0, 0])) := by
  refine ⟨by decide, ?_⟩
  decide

/-- The miss of scenario 1: after the parse of the sample text, `get` for
`missing` returns 0 and leaves the destination as it was. -/
theorem get_missing_sample :
    (execParser (initYmlParser (bytes "name: \"srv1\"\nslots: 4\n") empty_map)).map
        (fun r => (r.1, get (some r.2) (some (bytes "missing")) (some [7, 7, 7, 7]))) =
      some (1, some (0, some [7, 7, 7, 7])) := by
  decide

/-- C4 (behaviour of the code): on `x: 1\nx: 2\n` the integer pass emits two
triples for `x`, both are linked into the chain, and `get` for `x` copies the
`int` 1 of the first line, not the 2 of the last line. -/
theorem c4_first_integer_line_wins :
    emitted (bytes "x: 1\nx: 2\n") =
        [⟨bytes "x", bytes "1", YML_INT_TYPE⟩, ⟨bytes "x", bytes "2", YML_INT_TYPE⟩] ∧
      (execParser (initYmlParser (bytes "x: 1\nx: 2\n") empty_map)).map
          (fun r => (r.1, get (some r.2) (some (bytes "x")) (some [7, 7, 7, 7]))) =
        some (1, some (1, some [1, 0, 0, 0])) ∧
      int_of_bytes [1, 0, 0, 0] = 1 := by
  decide

/-- C5 (behaviour of the code): on `x: 1\nx: "y"\n` the integer triple is
observed first and the string triple second, and `get` for `x` copies the four
bytes of the `int` 1, not the string `y` with its terminator. -/
theorem c5_integer_shadows_string :
    emitted (bytes "x: 1\nx: \"y\"\n") =
        [⟨bytes "x", bytes "1", YML_INT_TYPE⟩, ⟨bytes "x", bytes "y", YML_STRING_TYPE⟩] ∧
      (execParser (initYmlParser (bytes "x: 1\nx: \"y\"\n") empty_map)).map
          (fun r => (r.1, get (some r.2) (some (bytes "x")) (some [7, 7, 7, 7]))) =
        some (1, some (1, some [1, 0, 0, 0])) := by
  decide

/-- C6 (behaviour of the code): a second `hashmap_insert` with a key that is
already present returns 1 and links a second cell with the same key after the
first one, whose value and size are left as they were. -/
theorem c6_duplicate_key_appended :
    (hashmap_insert (hashmap_insert empty_map (bytes "x") [1, 0, 0, 0] 4).2
        (bytes "x") [2, 0, 0, 0] 4).1 = 1 ∧
      (hashmap_insert (hashmap_insert empty_map (bytes "x") [1, 0, 0, 0] 4).2
        (bytes "x") [2, 0, 0, 0] 4).2.elems (bucket (bytes "x")) =
        [⟨[1, 0, 0, 0], bytes "x", 4⟩, ⟨[2, 0, 0, 0], bytes "x", 4⟩] := by
  decide

theorem insert_all_eq (calls : List (List Nat × List Nat × Nat)) (m : yml_hash_map) :
    insert_all m calls =
      (calls.map (fun c => (⟨c.2.1.take c.2.2, cstr c.1, c.2.2⟩ : yml_hash_map_elem))).foldl
        add_elem m := by
  induction calls generalizing m with
  | nil => rfl
  | cons c calls ih =>
    have hstep : insert_all m (c :: calls) =
        insert_all (hashmap_insert m c.1 c.2.1 c.2.2).2 calls := rfl
    rw [hstep, ih, hashmap_insert_eq]
    rfl

theorem find_of_nodup_map {α β : Type} [DecidableEq β] (f : α → β) (l : List α)
    (hd : (l.map f).Nodup) (c : α) (hc : c ∈ l) :
    l.find? (fun x => decide (f x = f c)) = some c := by
  induction l with
  | nil => simp at hc
  | cons a l ih =>
    rw [List.map_cons, List.nodup_cons] at hd
    rcases List.mem_cons.1 hc with h | h
    · subst h
      simp
    · have hne : f a ≠ f c := by
        intro he
        exact hd.1 (he ▸ List.mem_map_of_mem f h)
      rw [List.find?_cons_of_neg _ (by simpa using hne)]
      exact ih hd.2 h

/-- C7: after any sequence of `hashmap_insert` calls with pairwise distinct
keys on the empty table (value blocks of at least `size` bytes), whatever the
buckets the keys fall into, `get` on each inserted key returns 1 and copies
exactly the `size` value bytes inserted with that key; the cell found records
that value and that size. -/
theorem c7_distinct_keys_round_trip (calls : List (List Nat × List Nat × Nat))
    (hd : (calls.map (fun c => cstr c.1)).Nodup)
    (hsz : ∀ c ∈ calls, c.2.2 ≤ c.2.1.length)
    (c : List Nat × List Nat × Nat) (hc : c ∈ calls)
    (mutex : Nat) (content : List Nat) (executed : Int) (buf : List Nat) :
    chain_find c.1 ((insert_all empty_map calls).elems (bucket c.1)) =
        some ⟨c.2.1.take c.2.2, cstr c.1, c.2.2⟩ ∧
      (c.2.1.take c.2.2).length = c.2.2 ∧
      get (some ⟨mutex, content, insert_all empty_map calls, executed⟩) (some c.1) (some buf) =
        some (1, some (c.2.1.take c.2.2 ++ buf.drop c.2.2)) := by
  have hfind : chain_find c.1 ((insert_all empty_map calls).elems (bucket c.1)) =
      some ⟨c.2.1.take c.2.2, cstr c.1, c.2.2⟩ := by
    rw [insert_all_eq, chain_find_foldl_add_elem, List.find?_map]
    have := find_of_nodup_map (fun c : List Nat × List Nat × Nat => cstr c.1) calls hd c hc
    simp only [empty_map, chain_find, Option.none_or]
    have hcomp : ((fun e : yml_hash_map_elem => decide (cstr e.key = cstr c.1)) ∘
        fun c : List Nat × List Nat × Nat =>
          (⟨c.2.1.take c.2.2, cstr c.1, c.2.2⟩ : yml_hash_map_elem)) =
        fun x => decide (cstr x.1 = cstr c.1) := by
      funext x
      simp [cstr_cstr]
    rw [hcomp, this]
    rfl
  refine ⟨hfind, by simpa using hsz c hc, ?_⟩
  unfold get
  simp only [hfind, memcpy, List.take_take, Nat.min_self]

theorem calls260_nodup : (calls260.map (fun c => cstr c.1)).Nodup := by
  unfold calls260
  rw [List.map_map]
  refine List.Nodup.map_on ?_ (List.nodup_range 260)
  intro i hi j hj h
  have hi1 := List.mem_range.1 hi
  have hj1 := List.mem_range.1 hj
  have hci : cstr [97 + i / 26, 97 + i % 26] = [97 + i / 26, 97 + i % 26] :=
    cstr_eq_self (by simp)
  have hcj : cstr [97 + j / 26, 97 + j % 26] = [97 + j / 26, 97 + j % 26] :=
    cstr_eq_self (by simp)
  simp only [Function.comp, hci, hcj, List.cons.injEq, and_true] at h
  omega

theorem calls260_size : ∀ c ∈ calls260, c.2.2 ≤ c.2.1.length := by
  unfold calls260
  intro c hc
  obtain ⟨i, _, rfl⟩ := List.mem_map.1 hc
  simp [int_bytes]

theorem c7_distinct_keys_round_trip_witness :
    calls260.length = 260 ∧ bucket (bytes "ad") = bucket (bytes "ha") ∧
      get (some ⟨1, [], insert_all empty_map calls260, EXECUTED⟩) (some (bytes "ad"))
          (some [7, 7, 7, 7, 7, 7]) = some (1, some [3, 0, 0, 0, 7, 7]) ∧
      get (some ⟨1, [], insert_all empty_map calls260, EXECUTED⟩) (some (bytes "ha"))
          (some [7, 7, 7, 7, 7, 7]) = some (1, some [182, 0, 0, 0, 7, 7]) :=
  ⟨by simp [calls260], by decide,
    (c7_distinct_keys_round_trip calls260 calls260_nodup calls260_size
      (bytes "ad", int_bytes 3, 4) (List.mem_map.2 ⟨3, by simp, rfl⟩) 1 [] EXECUTED
      [7, 7, 7, 7, 7, 7]).2.2,
    (c7_distinct_keys_round_trip calls260 calls260_nodup calls260_size
      (bytes "ha", int_bytes 182, 4) (List.mem_map.2 ⟨182, by simp, rfl⟩) 1 [] EXECUTED
      [7, 7, 7, 7, 7, 7]).2.2⟩

theorem execParser_ok {p p1 : ymlParser} (h : execParser p = some (1, p1)) :
    p1.mutex ≠ 0 ∧ p1.executed = EXECUTED := by
  unfold execParser at h
  cases hw : sem_wait p.mutex with
  | none => simp [hw] at h
  | some mutex =>
    simp only [hw] at h
    split at h
    · simp [YML_ALREADY_EXECUTED] at h
    · split at h
      · simp at h
      · split at h
        · simp at h
        · simp only [Option.some.injEq, Prod.mk.injEq, true_and] at h
          subst h
          exact ⟨Nat.succ_ne_zero _, rfl⟩

theorem execParser_executed (q : ymlParser) (hm : q.mutex ≠ 0) (he : q.executed = EXECUTED) :
    execParser q = some (YML_ALREADY_EXECUTED, { q with mutex := q.mutex - 1 }) := by
  unfold execParser
  simp [sem_wait, hm, he]

/-- C8: on every reader on which `execParser` has returned 1, a second
`execParser` returns `YML_ALREADY_EXECUTED` (-6) and leaves the text, the
executed flag and the whole table (every chain) as the first call left them. -/
theorem c8_execParser_one_shot (p p1 : ymlParser) (h : execParser p = some (1, p1)) :
    ∃ p2, execParser p1 = some (YML_ALREADY_EXECUTED, p2) ∧ YML_ALREADY_EXECUTED = -6 ∧
      p2.content = p1.content ∧ p2.executed = p1.executed ∧ p2.map = p1.map ∧
      ∀ i, p2.map.elems i = p1.map.elems i := by
  obtain ⟨hm, he⟩ := execParser_ok h
  exact ⟨{ p1 with mutex := p1.mutex - 1 }, execParser_executed p1 hm he, rfl, rfl, rfl, rfl,
    fun _ => rfl⟩

theorem c8_execParser_one_shot_witness :
    ∃ p2, execParser (parsed (bytes "name: \"srv1\"\nslots: 4\n")) = some (-6, p2) ∧
      p2.content = bytes "name: \"srv1\"\nslots: 4\n" ∧ p2.executed = EXECUTED ∧
      p2.map = parsed_map (bytes "name: \"srv1\"\nslots: 4\n") := by
  obtain ⟨p2, h1, _, h3, h4, h5, _⟩ := c8_execParser_one_shot
    (initYmlParser (bytes "name: \"srv1\"\nslots: 4\n") empty_map)
    (parsed (bytes "name: \"srv1\"\nslots: 4\n"))
    (execParser_init (bytes "name: \"srv1\"\nslots: 4\n"))
  exact ⟨p2, h1, h3, h4, h5⟩

/-- C9 (behaviour of the code): with a reader and a destination that are not
null, a null key is handed to `str_hashfun` and dereferenced; the call has no
result, in particular it does not return `YML_INVALID_POINTER`. -/
theorem c9_null_key_not_checked (p : ymlParser) (buf : List Nat) :
    get (some p) none (some buf) = none ∧
      get (some p) none (some buf) ≠ some (YML_INVALID_POINTER, some buf) := by
  constructor
  · rfl
  · intro h
    cases h

/-- The part of the contract of `get` the code keeps: -1 for a null reader or
a null destination, and only 0 or 1 when reader, key and destination are not
null. -/
theorem get_result_cases (p : ymlParser) (k buf : List Nat) (key : Option (List Nat))
    (buffer : Option (List Nat)) (parser : Option ymlParser) :
    get none key buffer = some (-1, buffer) ∧ get parser key none = some (-1, none) ∧
      ∃ r out, get (some p) (some k) (some buf) = some (r, some out) ∧ (r = 0 ∨ r = 1) := by
  refine ⟨rfl, ?_, ?_⟩
  · cases parser <;> rfl
  · cases h : chain_find k (p.map.elems (bucket k)) with
    | none => exact ⟨0, buf, by simp [get, h], Or.inl rfl⟩
    | some e => exact ⟨1, memcpy buf e.value e.size, by simp [get, h], Or.inr rfl⟩

theorem reg_apply_loop_nomatch {σ : Type} (reg : Regex)
    (func : σ → List Nat → regmatches → Int → σ × Int) (n : Nat) (cursor : List Nat)
    (context : σ) (acc : Int) (h : regexec reg cursor = none) :
    reg_apply_loop reg func n cursor context acc = (context, acc) := by
  cases n with
  | zero => rfl
  | succ n =>
    unfold reg_apply_loop
    rw [h]

theorem isKeyChar_ne_zero {c : Nat} (h : isKeyChar c = true) : c ≠ 0 := by
  intro h0
  subst h0
  simp [isKeyChar, isDigit] at h

theorem run_len_append_stop (p : Nat → Bool) (l : List Nat) (c : Nat) (rest : List Nat)
    (hl : ∀ x ∈ l, p x = true) (hc : p c = false) :
    run_len p (l ++ c :: rest) = l.length := by
  unfold run_len
  rw [List.takeWhile_append_of_pos hl]
  simp [List.takeWhile_cons, hc]

/-- No match of either pattern starts inside a key that is followed by
`: ""` and a line feed. -/
theorem match_here_empty_quotes (reg : Regex) (k : List Nat)
    (hk : ∀ c ∈ k, isKeyChar c = true) :
    match_here reg (k ++ [58, 32, 34, 34, 10]) = none := by
  have hrun := run_len_append_stop isKeyChar k 58 [32, 34, 34, 10] hk (by decide)
  unfold match_here
  simp only [hrun]
  by_cases h0 : k.length = 0
  · simp [h0]
  · simp only [h0, if_false, List.drop_left]
    have hw1 : run_len isSpace [58, 32, 34, 34, 10] = 0 := by decide
    simp only [hw1, Nat.add_zero, List.drop_left]
    have hi : int_value_len (List.drop (run_len isSpace [32, 34, 34, 10]) [32, 34, 34, 10]) =
        none := by decide
    have hs : string_value_len (List.drop (run_len isSpace [32, 34, 34, 10]) [32, 34, 34, 10]) =
        none := by decide
    cases reg <;> simp only [hi, hs]

theorem regexec_from_empty_quotes (reg : Regex) (k : List Nat)
    (hk : ∀ c ∈ k, isKeyChar c = true) (off : Nat) :
    regexec_from reg (k ++ [58, 32, 34, 34, 10]) off = none := by
  induction k generalizing off with
  | nil =>
    simp only [List.nil_append, regexec_from]
    cases reg <;> simp [match_here, run_len, isKeyChar, isDigit, isSpace]
  | cons c k ih =>
    have hm := match_here_empty_quotes reg (c :: k) hk
    simp only [List.cons_append] at hm ⊢
    unfold regexec_from
    rw [hm]
    exact ih (fun x hx => hk x (List.mem_cons_of_mem c hx)) (off + 1)

theorem pass_triples_empty_quotes (reg : Regex) (kind : Int) (k : List Nat)
    (hk : ∀ c ∈ k, isKeyChar c = true) :
    pass_triples (k ++ [58, 32, 34, 34, 10]) reg kind = [] := by
  have hc : cstr (k ++ [58, 32, 34, 34, 10]) = k ++ [58, 32, 34, 34, 10] := by
    apply cstr_eq_self
    intro c hc
    rcases List.mem_append.1 hc with h | h
    · exact isKeyChar_ne_zero (hk c h)
    · simp at h
      omega
  unfold pass_triples reg_apply_func
  rw [reg_apply_loop_nomatch]
  unfold regexec
  rw [hc]
  exact regexec_from_empty_quotes reg k hk 0

/-- C10 (refuted as stated): the text `k: ""` followed by a line feed emits no
triple, and `get` for `k` returns 0 without writing to the destination. -/
theorem c10_empty_quoted_string_counterexample :
    emitted (bytes "k: \"\"\n") = [] ∧
      (execParser (initYmlParser (bytes "k: \"\"\n") empty_map)).map
          (fun r => (r.1, get (some r.2) (some (bytes "k")) (some [7]))) =
        some (1, some (0, some [7])) := by
  decide

/-- The byte classes of the two patterns. -/
theorem isKeyChar_iff (c : Nat) :
    isKeyChar c = true ↔
      (97 ≤ c ∧ c ≤ 122) ∨ (65 ≤ c ∧ c ≤ 90) ∨ (48 ≤ c ∧ c ≤ 57) ∨ c = 95 := by
  simp only [isKeyChar, isDigit, Bool.or_eq_true, beq_iff_eq, Bool.and_eq_true,
    decide_eq_true_eq]
  omega

theorem isDigit_iff (c : Nat) : isDigit c = true ↔ 48 ≤ c ∧ c ≤ 57 := by
  simp only [isDigit, Bool.and_eq_true, decide_eq_true_eq]

theorem isStrChar_iff (c : Nat) :
    isStrChar c = true ↔
      (97 ≤ c ∧ c ≤ 122) ∨ (65 ≤ c ∧ c ≤ 90) ∨ (48 ≤ c ∧ c ≤ 57) ∨ c = 95 ∨ c = 32 := by
  simp only [isStrChar, isKeyChar, isDigit, Bool.or_eq_true, beq_iff_eq, Bool.and_eq_true,
    decide_eq_true_eq]
  omega

/-- When neither pattern matches, `execParser` returns 1 without touching the
table: the index is the block as it was found at construction. -/
theorem no_match_table_unchanged (text : List Nat) (block : yml_hash_map)
    (he : emitted text = []) :
    execParser (initYmlParser text block) = some (1, ⟨1, text, block, EXECUTED⟩) := by
  rw [execParser_init_block, he]
  rfl

/-- C10 (amended): a quoted empty string is not matched. For every key `k`
over `[A-Za-z0-9_]`, the text made of `k`, `: ""` and a line feed emits no
triple in either pass; `execParser` returns 1 and leaves the table as it was
at construction, and when that table was empty `get` for `k` returns 0 and
leaves the destination unchanged. The keys are the strings over the bytes
`a`-`z`, `A`-`Z`, `0`-`9` and `_`. -/
theorem c10_empty_quoted_string_not_matched (k buf : List Nat) (block : yml_hash_map)
    (hk : ∀ c ∈ k, isKeyChar c = true) :
    emitted (k ++ bytes ": \"\"\n") = [] ∧
      (∃ p, execParser (initYmlParser (k ++ bytes ": \"\"\n") block) = some (1, p) ∧
        p.map = block ∧
        ((∀ i, block.elems i = []) →
          (∀ i, p.map.elems i = []) ∧
            get (some p) (some k) (some buf) = some (0, some buf))) ∧
      ∀ c, isKeyChar c = true ↔
        (97 ≤ c ∧ c ≤ 122) ∨ (65 ≤ c ∧ c ≤ 90) ∨ (48 ≤ c ∧ c ≤ 57) ∨ c = 95 := by
  have hb : bytes ": \"\"\n" = [58, 32, 34, 34, 10] := by decide
  have he : emitted (k ++ bytes ": \"\"\n") = [] := by
    rw [hb]
    unfold emitted
    rw [pass_triples_empty_quotes _ _ k hk, pass_triples_empty_quotes _ _ k hk]
    rfl
  refine ⟨he, ⟨_, no_match_table_unchanged _ block he, rfl, ?_⟩, isKeyChar_iff⟩
  intro hclean
  refine ⟨hclean, ?_⟩
  unfold get
  simp only [hclean, chain_find]

theorem c10_empty_quoted_string_not_matched_witness :
    (∀ c ∈ bytes "Key_1", isKeyChar c = true) ∧
      emitted (bytes "Key_1" ++ bytes ": \"\"\n") = [] ∧
      ∃ p, execParser (initYmlParser (bytes "Key_1" ++ bytes ": \"\"\n") empty_map) = some (1, p) ∧
        p.map = empty_map ∧ (∀ i, p.map.elems i = []) ∧
        get (some p) (some (bytes "Key_1")) (some [7, 7]) = some (0, some [7, 7]) := by
  obtain ⟨h1, ⟨p, h2, h3, h4⟩, _⟩ :=
    c10_empty_quoted_string_not_matched (bytes "Key_1") [7, 7] empty_map (by decide)
  exact ⟨by decide, h1, p, h2, h3, (h4 (fun _ => rfl)).1, (h4 (fun _ => rfl)).2⟩

/-! ## The table after a sequence of insertions -/

theorem mem_add_elem (m : yml_hash_map) (e x : yml_hash_map_elem) (i : Fin MAP_SIZE) :
    x ∈ (add_elem m e).elems i ↔ x ∈ m.elems i ∨ (x = e ∧ bucket e.key = i) := by
  show x ∈ Function.update m.elems (bucket e.key) (m.elems (bucket e.key) ++ [e]) i ↔ _
  by_cases hi : i = bucket e.key
  · subst hi
    simp
  · rw [Function.update_noteq hi]
    constructor
    · intro h
      exact Or.inl h
    · rintro (h | ⟨_, h⟩)
      · exact h
      · exact absurd h.symm hi

theorem mem_foldl_add_elem (l : List yml_hash_map_elem) (m : yml_hash_map)
    (x : yml_hash_map_elem) (i : Fin MAP_SIZE) :
    x ∈ (l.foldl add_elem m).elems i ↔ x ∈ m.elems i ∨ (x ∈ l ∧ bucket x.key = i) := by
  induction l generalizing m with
  | nil => simp
  | cons e rest ih =>
    rw [List.foldl_cons, ih, mem_add_elem]
    constructor
    · rintro ((h | ⟨h, hb⟩) | ⟨h, hb⟩)
      · exact Or.inl h
      · exact Or.inr ⟨by simp [h], h ▸ hb⟩
      · exact Or.inr ⟨List.mem_cons_of_mem _ h, hb⟩
    · rintro (h | ⟨h, hb⟩)
      · exact Or.inl (Or.inl h)
      · rcases List.mem_cons.1 h with h1 | h1
        · exact Or.inl (Or.inr ⟨h1, h1 ▸ hb⟩)
        · exact Or.inr ⟨h1, hb⟩

theorem chain_find_eq_none (k : List Nat) (l : List yml_hash_map_elem) :
    chain_find k l = none ↔ ∀ e ∈ l, cstr e.key ≠ cstr k := by
  rw [chain_find_eq_find, List.find?_eq_none]
  simp

theorem get_eq_of_chain_find (p : ymlParser) (k buf : List Nat) :
    get (some p) (some k) (some buf) =
      match chain_find k (p.map.elems (bucket k)) with
      | none => some (0, some buf)
      | some elem => some (1, some (memcpy buf elem.value elem.size)) := rfl

/-- On a table that is empty at construction: for the empty text, and for
every text in which neither pattern matches, `execParser` returns 1 and the
index is empty: every one of the 256 chains is empty and `get` returns 0 for
every key, leaving the destination as it was. -/
theorem clean_table_no_match_empty_index (text : List Nat) (block : yml_hash_map)
    (hclean : ∀ i, block.elems i = [])
    (h : text = [] ∨ ∀ reg, regexec reg text = none) :
    ∃ p, execParser (initYmlParser text block) = some (1, p) ∧
      (∀ i : Fin MAP_SIZE, p.map.elems i = []) ∧
      ∀ k buf, get (some p) (some k) (some buf) = some (0, some buf) := by
  have hr : ∀ reg, regexec reg text = none := by
    rcases h with h | h
    · subst h
      intro reg
      rfl
    · exact h
  have he : emitted text = [] := by
    unfold emitted pass_triples reg_apply_func
    rw [reg_apply_loop_nomatch _ _ _ _ _ _ (hr _), reg_apply_loop_nomatch _ _ _ _ _ _ (hr _)]
    rfl
  refine ⟨_, no_match_table_unchanged text block he, hclean, ?_⟩
  intro k buf
  rw [get_eq_of_chain_find]
  simp only [hclean, chain_find]

/-- C12 (behaviour of the code): the table is not cleared at construction, and
a parse that matches nothing leaves it as it was found. On the empty text, a
reader whose bucket of `x` holds a cell at construction still holds it after
`execParser` has returned 1: the index is not empty and `get` for `x` returns
1 and copies the bytes of that cell. -/
theorem c12_table_not_cleared :
    emitted [] = [] ∧
      (execParser (initYmlParser [] (add_elem empty_map ⟨[9, 0, 0, 0], bytes "x", 4⟩))).map
          (fun r => (r.1, get (some r.2) (some (bytes "x")) (some [7, 7, 7, 7]))) =
        some (1, some (1, some [9, 0, 0, 0])) ∧
      (execParser (initYmlParser [] (add_elem empty_map ⟨[9, 0, 0, 0], bytes "x", 4⟩))).map
          (fun r => r.2.map.elems (bucket (bytes "x"))) =
        some [⟨[9, 0, 0, 0], bytes "x", 4⟩] := by
  refine ⟨by decide, by decide, ?_⟩
  decide

/-- C13 (behaviour of the code): the semaphore is posted on the success path
only. After a first `execParser` (counter back at 1) the second call takes the
semaphore, returns `YML_ALREADY_EXECUTED` and leaves the counter at 0; a
following `execParser` or `freeParser` on that reader blocks in `sem_wait`. -/
theorem c13_mutex_kept_on_early_return (text : List Nat) :
    ∃ p1 p2, execParser (initYmlParser text empty_map) = some (1, p1) ∧ p1.mutex = 1 ∧
      execParser p1 = some (YML_ALREADY_EXECUTED, p2) ∧ p2.mutex = 0 ∧
      execParser p2 = none ∧ freeParser (some p2) = none := by
  refine ⟨parsed text, { parsed text with mutex := 0 }, execParser_init text, rfl, ?_, rfl, rfl,
    rfl⟩
  exact execParser_executed (parsed text) (Nat.succ_ne_zero 0) rfl

/-! ## The bucket of a key -/

theorem str_hashfun_loop_mod (w : Nat) (hw : 8 ≤ w) (h : Nat) (s : List Nat) :
    str_hashfun_loop w h s % 256 = (h * 37 ^ (cstr s).length + poly_hash (cstr s)) % 256 := by
  have hdvd : 256 ∣ 2 ^ w := by
    have := pow_dvd_pow 2 hw
    norm_num at this
    exact this
  induction s generalizing h with
  | nil => simp [str_hashfun_loop, cstr_nil, poly_hash]
  | cons c s ih =>
    rw [cstr_cons]
    by_cases hc : c = 0
    · simp [hc, str_hashfun_loop, poly_hash]
    · simp only [hc, if_false, str_hashfun_loop, List.length_cons, poly_hash]
      have h1 : Nat.ModEq 256 ((37 * h + c) % 2 ^ w) (37 * h + c) :=
        Nat.mod_mod_of_dvd _ hdvd
      have h2 : Nat.ModEq 256
          ((37 * h + c) % 2 ^ w * 37 ^ (cstr s).length + poly_hash (cstr s))
          ((37 * h + c) * 37 ^ (cstr s).length + poly_hash (cstr s)) :=
        (h1.mul_right _).add_right _
      rw [ih]
      have h3 : (37 * h + c) * 37 ^ (cstr s).length + poly_hash (cstr s) =
          h * 37 ^ ((cstr s).length + 1) + (c * 37 ^ (cstr s).length + poly_hash (cstr s)) := by
        rw [pow_succ]
        ring
      rw [← h3]
      exact h2

/-- C14: the bucket index `str_hashfun(key) % 256`, with `str_hashfun` computed
in wrapping arithmetic on words of `w` bits (`w ≥ 8`), is the polynomial
`sum of b_i * 37 ^ (n - 1 - i)` of the key bytes over the natural numbers,
reduced modulo 256; it is the same for every such width, in particular for
the 64 bits of `bucket`, and the empty key falls into bucket 0. -/
theorem c14_bucket_is_polynomial (w : Nat) (hw : 8 ≤ w) (key : List Nat) :
    str_hashfun_loop w 0 key % MAP_SIZE = poly_hash (cstr key) % 256 ∧
      str_hashfun_loop w 0 key % MAP_SIZE = (bucket key).val ∧
      str_hashfun_loop w 0 [] % MAP_SIZE = 0 := by
  have h1 := str_hashfun_loop_mod w hw 0 key
  have h2 := str_hashfun_loop_mod 64 (by decide) 0 key
  simp only [Nat.zero_mul, Nat.zero_add] at h1 h2
  refine ⟨h1, ?_, rfl⟩
  show _ = str_hashfun_loop 64 0 key % 256
  rw [h1, h2]

theorem c14_bucket_is_polynomial_witness :
    str_hashfun_loop 8 0 (bytes "name") % MAP_SIZE = poly_hash (bytes "name") % 256 ∧
      str_hashfun_loop 8 0 (bytes "name") % MAP_SIZE = (bucket (bytes "name")).val ∧
      (bucket (bytes "name")).val = 213 ∧
      poly_hash (bytes "name") = 110 * 37 ^ 3 + 97 * 37 ^ 2 + 109 * 37 + 101 :=
  ⟨(c14_bucket_is_polynomial 8 (by decide) (bytes "name")).1,
    (c14_bucket_is_polynomial 8 (by decide) (bytes "name")).2.1, by decide, by decide⟩

/-! ## Insertion never disturbs what is stored -/

theorem get_insert_all (calls : List (List Nat × List Nat × Nat)) (mutex : Nat)
    (content : List Nat) (executed : Int) (k buf : List Nat) :
    get (some ⟨mutex, content, insert_all empty_map calls, executed⟩) (some k) (some buf) =
      match calls.find? (fun c => decide (cstr c.1 = cstr k)) with
      | none => some (0, some buf)
      | some c => some (1, some (c.2.1.take c.2.2 ++ buf.drop c.2.2)) := by
  rw [get_eq_of_chain_find]
  simp only []
  rw [insert_all_eq, chain_find_foldl_add_elem, List.find?_map]
  simp only [empty_map, chain_find, Option.none_or]
  have hcomp : ((fun e : yml_hash_map_elem => decide (cstr e.key = cstr k)) ∘
      fun c : List Nat × List Nat × Nat =>
        (⟨c.2.1.take c.2.2, cstr c.1, c.2.2⟩ : yml_hash_map_elem)) =
      fun c => decide (cstr c.1 = cstr k) := by
    funext x
    simp [cstr_cstr]
  rw [hcomp]
  cases calls.find? (fun c => decide (cstr c.1 = cstr k)) with
  | none => rfl
  | some c => simp [memcpy, List.take_take]

/-- C15: `hashmap_insert` links one cell after the last cell of the chain of
its key and changes no other chain; `get` gives the same result as before the
call for every key that was present, the inserted key included. After any
sequence of insertions on the empty table, `get` returns the value of the
earliest insertion made with its key. -/
theorem c15_first_insertion_kept (m : yml_hash_map) (key value : List Nat) (size : Nat)
    (calls : List (List Nat × List Nat × Nat)) (mutex : Nat) (content : List Nat)
    (executed : Int) (k buf : List Nat) :
    (hashmap_insert m key value size).2.elems (bucket key) =
        m.elems (bucket key) ++ [⟨value.take size, cstr key, size⟩] ∧
      (∀ i, i ≠ bucket key → (hashmap_insert m key value size).2.elems i = m.elems i) ∧
      (chain_find k (m.elems (bucket k)) ≠ none →
        get (some ⟨mutex, content, (hashmap_insert m key value size).2, executed⟩) (some k)
            (some buf) =
          get (some ⟨mutex, content, m, executed⟩) (some k) (some buf)) ∧
      get (some ⟨mutex, content, insert_all empty_map calls, executed⟩) (some k) (some buf) =
        match calls.find? (fun c => decide (cstr c.1 = cstr k)) with
        | none => some (0, some buf)
        | some c => some (1, some (c.2.1.take c.2.2 ++ buf.drop c.2.2)) := by
  rw [hashmap_insert_eq]
  refine ⟨?_, ?_, ?_, get_insert_all calls mutex content executed k buf⟩
  · show Function.update m.elems (bucket (cstr key)) _ (bucket key) = _
    rw [bucket_cstr, Function.update_same]
  · intro i hi
    show Function.update m.elems (bucket (cstr key)) _ i = _
    rw [bucket_cstr, Function.update_noteq hi]
  · intro hp
    rw [get_eq_of_chain_find, get_eq_of_chain_find]
    simp only []
    rw [chain_find_add_elem]
    cases hf : chain_find k (m.elems (bucket k)) with
    | none => exact absurd hf hp
    | some e => rfl

theorem c15_first_insertion_kept_witness :
    chain_find (bytes "x") ((hashmap_insert empty_map (bytes "x") [1, 0, 0, 0] 4).2.elems
        (bucket (bytes "x"))) ≠ none ∧
      get (some ⟨1, [], (hashmap_insert (hashmap_insert empty_map (bytes "x") [1, 0, 0, 0] 4).2
          (bytes "x") [2, 0, 0, 0] 4).2, EXECUTED⟩) (some (bytes "x")) (some [7, 7, 7, 7]) =
        get (some ⟨1, [], (hashmap_insert empty_map (bytes "x") [1, 0, 0, 0] 4).2, EXECUTED⟩)
          (some (bytes "x")) (some [7, 7, 7, 7]) ∧
      get (some ⟨1, [], insert_all empty_map
          [(bytes "x", [1, 0, 0, 0], 4), (bytes "x", [2, 0, 0, 0], 4)], EXECUTED⟩)
          (some (bytes "x")) (some [7, 7, 7, 7]) = some (1, some [1, 0, 0, 0]) :=
  ⟨by decide,
    (c15_first_insertion_kept (hashmap_insert empty_map (bytes "x") [1, 0, 0, 0] 4).2
      (bytes "x") [2, 0, 0, 0] 4 [] 1 [] EXECUTED (bytes "x") [7, 7, 7, 7]).2.2.1 (by decide),
    (c15_first_insertion_kept empty_map [] [] 0
      [(bytes "x", [1, 0, 0, 0], 4), (bytes "x", [2, 0, 0, 0], 4)] 1 [] EXECUTED (bytes "x")
      [7, 7, 7, 7]).2.2.2⟩

theorem chain_find_some {k : List Nat} {l : List yml_hash_map_elem} {e : yml_hash_map_elem}
    (h : chain_find k l = some e) : e ∈ l ∧ cstr e.key = cstr k := by
  rw [chain_find_eq_find] at h
  exact ⟨List.mem_of_find?_eq_some h, by simpa using List.find?_some h⟩

/-- C17: in every table obtained from the empty table by `hashmap_insert`
calls, each cell stored in bucket `i` has a key with
`str_hashfun(key) % 256 = i`; hence when the walk of `get` finds nothing in
the bucket of the key (`get` returns 0), no cell of any bucket carries that
key. -/
theorem c17_bucket_placement (calls : List (List Nat × List Nat × Nat)) :
    (∀ (i : Fin MAP_SIZE) (e : yml_hash_map_elem), e ∈ (insert_all empty_map calls).elems i →
        str_hashfun e.key % MAP_SIZE = i.val) ∧
      ∀ (mutex : Nat) (content : List Nat) (executed : Int) (k buf : List Nat),
        (get (some ⟨mutex, content, insert_all empty_map calls, executed⟩) (some k) (some buf)).map
            Prod.fst = some 0 →
          ∀ (i : Fin MAP_SIZE) (e : yml_hash_map_elem),
            e ∈ (insert_all empty_map calls).elems i → e.key ≠ cstr k := by
  have hplace : ∀ (i : Fin MAP_SIZE) (e : yml_hash_map_elem),
      e ∈ (insert_all empty_map calls).elems i → bucket e.key = i ∧ cstr e.key = e.key := by
    intro i e he
    rw [insert_all_eq, mem_foldl_add_elem] at he
    rcases he with he | ⟨he, hb⟩
    · simp [empty_map] at he
    · refine ⟨hb, ?_⟩
      obtain ⟨c, _, rfl⟩ := List.mem_map.1 he
      exact cstr_cstr _
  refine ⟨fun i e he => ?_, ?_⟩
  · have := (hplace i e he).1
    rw [← this]
    rfl
  · intro mutex content executed k buf hget i e he hk
    rw [get_eq_of_chain_find] at hget
    simp only [] at hget
    have hb : bucket e.key = bucket k := by
      rw [hk, bucket_cstr]
    have hmem : e ∈ (insert_all empty_map calls).elems (bucket k) := by
      rw [← hb, (hplace i e he).1]
      exact he
    cases hf : chain_find k ((insert_all empty_map calls).elems (bucket k)) with
    | none =>
      have := (chain_find_eq_none k _).1 hf e hmem
      rw [hk, cstr_cstr] at this
      exact this rfl
    | some e1 =>
      rw [hf] at hget
      simp at hget

theorem c17_bucket_placement_witness :
    (get (some ⟨1, [], insert_all empty_map calls260, EXECUTED⟩) (some (bytes "zz"))
        (some [7])).map Prod.fst = some 0 ∧
      ∀ (i : Fin MAP_SIZE) (e : yml_hash_map_elem),
        e ∈ (insert_all empty_map calls260).elems i →
          str_hashfun e.key % MAP_SIZE = i.val ∧ e.key ≠ cstr (bytes "zz") := by
  have hget : (get (some ⟨1, [], insert_all empty_map calls260, EXECUTED⟩) (some (bytes "zz"))
      (some [7])).map Prod.fst = some 0 := by
    rw [get_insert_all]
    have : calls260.find? (fun c => decide (cstr c.1 = cstr (bytes "zz"))) = none := by
      rw [List.find?_eq_none]
      intro c hc
      unfold calls260 at hc
      obtain ⟨i, hi, rfl⟩ := List.mem_map.1 hc
      have hi1 := List.mem_range.1 hi
      have hci : cstr [97 + i / 26, 97 + i % 26] = [97 + i / 26, 97 + i % 26] :=
        cstr_eq_self (by simp)
      have hz : cstr (bytes "zz") = [122, 122] := by decide
      simp only [hci, hz, decide_eq_true_eq, List.cons.injEq, and_true, not_and]
      omega
    rw [this]
    rfl
  exact ⟨hget, fun i e he =>
    ⟨(c17_bucket_placement calls260).1 i e he,
      (c17_bucket_placement calls260).2 1 [] EXECUTED (bytes "zz") [7] hget i e he⟩⟩

/-- On a table that is empty at construction: in the index `execParser`
builds from any text, each cell's value has exactly `size` bytes and comes
from an emitted triple: `size = 4` for a cell of the integer pass; for a cell
of the string pass the value is the quoted content followed by one NUL, `size`
is the length of the content plus one and no byte of the content is NUL. On a
hit, `get` copies exactly the `size` bytes of the cell it found and leaves the
rest of the destination. -/
theorem clean_table_size_matches_value (text : List Nat) (block : yml_hash_map)
    (hclean : ∀ i, block.elems i = []) :
    ∃ p, execParser (initYmlParser text block) = some (1, p) ∧
      (∀ (i : Fin MAP_SIZE) (e : yml_hash_map_elem), e ∈ p.map.elems i →
        e.value.length = e.size ∧
        ∃ t ∈ emitted text, e.key = t.key ∧
          ((t.kind = YML_INT_TYPE ∧ e.size = 4 ∧ e.value = int_bytes (atoi t.value)) ∨
            (t.kind = YML_STRING_TYPE ∧ e.size = t.value.length + 1 ∧
              e.value = t.value ++ [0] ∧ ∀ c ∈ t.value, c ≠ 0))) ∧
      ∀ (k buf out : List Nat), get (some p) (some k) (some buf) = some (1, some out) →
        ∃ (i : Fin MAP_SIZE) (e : yml_hash_map_elem), e ∈ p.map.elems i ∧ e.key = cstr k ∧
          out = e.value ++ buf.drop e.size ∧ e.value.length = e.size := by
  have hb := eq_empty_map block hclean
  subst hb
  have hcell : ∀ (i : Fin MAP_SIZE) (e : yml_hash_map_elem),
      e ∈ (parsed text).map.elems i →
        e.value.length = e.size ∧ cstr e.key = e.key ∧
        ∃ t ∈ emitted text, e.key = t.key ∧
          ((t.kind = YML_INT_TYPE ∧ e.size = 4 ∧ e.value = int_bytes (atoi t.value)) ∨
            (t.kind = YML_STRING_TYPE ∧ e.size = t.value.length + 1 ∧
              e.value = t.value ++ [0] ∧ ∀ c ∈ t.value, c ≠ 0)) := by
    intro i e he
    simp only [parsed, parsed_map] at he
    rw [mem_foldl_add_elem] at he
    rcases he with he | ⟨he, _⟩
    · simp [empty_map] at he
    · obtain ⟨t, ht, rfl⟩ := List.mem_map.1 he
      obtain ⟨hk, hv, hkind⟩ := emitted_mem text t ht
      refine ⟨rfl, hk, t, ht, rfl, ?_⟩
      rcases hkind with h1 | h2
      · left
        refine ⟨h1, ?_, ?_⟩
        · simp [stored_elem, stored_value, h1, int_bytes]
        · simp [stored_elem, stored_value, h1]
      · right
        have hne : t.kind ≠ YML_INT_TYPE := by
          rw [h2]
          decide
        refine ⟨h2, ?_, ?_, ?_⟩
        · simp [stored_elem, stored_value, hne]
        · simp [stored_elem, stored_value, hne]
        · intro c hc
          rw [← hv] at hc
          exact not_zero_of_mem_cstr hc
  refine ⟨parsed text, execParser_init text, fun i e he => ⟨(hcell i e he).1, (hcell i e he).2.2⟩,
    ?_⟩
  intro k buf out hget
  rw [get_eq_of_chain_find] at hget
  cases hf : chain_find k ((parsed text).map.elems (bucket k)) with
  | none =>
    rw [hf] at hget
    simp at hget
  | some e =>
    rw [hf] at hget
    obtain ⟨hmem, hkey⟩ := chain_find_some hf
    obtain ⟨hlen, hck, _⟩ := hcell _ e hmem
    refine ⟨bucket k, e, hmem, by rw [← hck, hkey], ?_, hlen⟩
    simp only [Option.some.injEq, Prod.mk.injEq, true_and] at hget
    rw [← hget, memcpy, ← hlen, List.take_length]

/-- C20 (behaviour of the code): the table is not cleared at construction. On
the text `em: 5`, a reader whose bucket of `old` holds a cell at construction
ends with an index that holds that cell besides the one of `em`: a cell that
no pass created (no triple has the key `old`) and whose recorded size, 4, is
not the number of bytes of its value. -/
theorem c20_stale_cell_in_index :
    emitted (bytes "em: 5\n") = [⟨bytes "em", bytes "5", YML_INT_TYPE⟩] ∧
      (execParser (initYmlParser (bytes "em: 5\n")
          (add_elem empty_map ⟨[1, 2], bytes "old", 4⟩))).map
          (fun r => r.2.map.elems (bucket (bytes "old"))) =
        some [⟨[1, 2], bytes "old", 4⟩] ∧
      (execParser (initYmlParser (bytes "em: 5\n")
          (add_elem empty_map ⟨[1, 2], bytes "old", 4⟩))).map
          (fun r => (r.1, r.2.map.elems (bucket (bytes "em")))) =
        some (1, [⟨[5, 0, 0, 0], bytes "em", 4⟩]) ∧
      ([1, 2] : List Nat).length ≠ 4 := by
  refine ⟨by decide, ?_, ?_, by decide⟩
  · decide
  · decide

/-! ## Every match takes at least three bytes of the string -/

theorem run_len_le (p : Nat → Bool) (s : List Nat) : run_len p s ≤ s.length :=
  (List.takeWhile_sublist p).length_le

theorem newlines_len_le_aux (n : Nat) : ∀ s : List Nat, s.length ≤ n →
    newlines_len s ≤ s.length := by
  induction n with
  | zero =>
    intro s hs
    have : s = [] := List.length_eq_zero.1 (Nat.le_zero.1 hs)
    subst this
    simp [newlines_len]
  | succ n ih =>
    intro s hs
    cases s with
    | nil => simp [newlines_len]
    | cons c rest =>
      simp only [List.length_cons] at hs
      unfold newlines_len
      by_cases hc : c = 10
      · have := ih rest (by omega)
        simp only [hc, if_true, List.length_cons]
        omega
      · simp only [hc, if_false]
        cases rest with
        | nil => simp
        | cons d rest1 =>
          simp only [List.length_cons] at hs ⊢
          by_cases hcd : c = 13 ∧ d = 10
          · have := ih rest1 (by omega)
            simp only [hcd, and_self, if_true]
            omega
          · simp only [hcd, if_false]
            omega

theorem newlines_len_le (s : List Nat) : newlines_len s ≤ s.length :=
  newlines_len_le_aux s.length s (Nat.le_refl _)

theorem int_value_len_bounds {s : List Nat} {n : Nat} (h : int_value_len s = some n) :
    1 ≤ n ∧ n ≤ s.length := by
  unfold int_value_len at h
  by_cases h45 : s.head? = some 45
  · simp only [h45, if_true] at h
    cases s with
    | nil => simp at h45
    | cons c s1 =>
      have hle := run_len_le isDigit s1
      simp only [List.drop_succ_cons, List.drop_zero] at h
      split at h
      · simp at h
      · simp only [Option.some.injEq] at h
        simp only [List.length_cons]
        omega
  · simp only [h45, if_false, List.drop_zero] at h
    have hle := run_len_le isDigit s
    split at h
    · simp at h
    · simp only [Option.some.injEq] at h
      omega

theorem string_value_len_bounds {s : List Nat} {n : Nat} (h : string_value_len s = some n) :
    1 ≤ n ∧ n + 2 ≤ s.length ∧ s.head? = some 34 := by
  unfold string_value_len at h
  split at h
  · rename_i s1
    simp only [] at h
    split at h
    · simp at h
    · rename_i hn
      split at h
      · rename_i hq
        simp only [Option.some.injEq] at h
        subst h
        have hne : s1.drop (run_len isStrChar s1) ≠ [] := by
          intro he
          rw [he] at hq
          simp at hq
        have hlt : run_len isStrChar s1 < s1.length := by
          by_contra hc
          exact hne (List.drop_eq_nil_iff.2 (by omega))
        refine ⟨by omega, ?_, rfl⟩
        simp only [List.length_cons]
        omega
      · simp at h
  · simp at h

/-- A match that starts at the head of a string holds a colon, is at least
three bytes long and ends inside the string. -/
theorem match_here_bounds {reg : Regex} {s : List Nat} {m : regmatches}
    (h : match_here reg s = some m) :
    3 ≤ m.whole.rm_eo ∧ m.whole.rm_eo ≤ s.length ∧ 58 ∈ s ∧
      (reg = Regex.YML_STRING_REGEX → 34 ∈ s) := by
  unfold match_here at h
  simp only [] at h
  split at h
  · simp at h
  · rename_i hk
    split at h
    · rename_i s2 hs2
      have hlen : (s.drop (run_len isKeyChar s +
          run_len isSpace (s.drop (run_len isKeyChar s)))).length = s2.length + 1 := by
        rw [hs2]
        rfl
      rw [List.length_drop] at hlen
      have hw2 := run_len_le isSpace s2
      have hcolon : 58 ∈ s := List.mem_of_mem_drop (hs2 ▸ List.mem_cons_self 58 s2)
      cases reg with
      | YML_INT_REGEX =>
        simp only [] at h
        split at h
        · simp at h
        · rename_i n hn
          simp only [Option.some.injEq] at h
          subst h
          have hb := int_value_len_bounds hn
          have hnl := newlines_len_le (s2.drop (run_len isSpace s2 + n))
          rw [List.length_drop] at hb hnl
          refine ⟨?_, ?_, hcolon, fun hreg => by cases hreg⟩
          · simp only []
            omega
          · simp only []
            omega
      | YML_STRING_REGEX =>
        simp only [] at h
        split at h
        · simp at h
        · rename_i n hn
          simp only [Option.some.injEq] at h
          subst h
          have hb := string_value_len_bounds hn
          have hnl := newlines_len_le (s2.drop (run_len isSpace s2 + n + 2))
          rw [List.length_drop] at hb hnl
          have hq : 34 ∈ s := by
            have h1 : 34 ∈ s2.drop (run_len isSpace s2) := by
              cases hd : s2.drop (run_len isSpace s2) with
              | nil => simp [hd] at hb
              | cons c r =>
                have := hb.2.2
                rw [hd] at this
                simp only [List.head?_cons, Option.some.injEq] at this
                subst this
                exact List.mem_cons_self _ _
            have h2 : 34 ∈ (58 :: s2) := List.mem_cons_of_mem _ (List.mem_of_mem_drop h1)
            rw [← hs2] at h2
            exact List.mem_of_mem_drop h2
          refine ⟨?_, ?_, hcolon, fun _ => hq⟩
          · simp only []
            omega
          · simp only []
            omega
    · simp at h

theorem regexec_from_bounds {reg : Regex} {s : List Nat} {off : Nat} {m : regmatches}
    (h : regexec_from reg s off = some m) :
    off + 3 ≤ m.whole.rm_eo ∧ m.whole.rm_eo ≤ off + s.length ∧ 58 ∈ s ∧
      (reg = Regex.YML_STRING_REGEX → 34 ∈ s) := by
  induction s generalizing off with
  | nil => simp [regexec_from] at h
  | cons c s ih =>
    unfold regexec_from at h
    cases hm : match_here reg (c :: s) with
    | some m1 =>
      simp only [hm, Option.some.injEq] at h
      subst h
      have hb := match_here_bounds hm
      simp only [regmatches.shift]
      refine ⟨by omega, by omega, hb.2.2.1, hb.2.2.2⟩
    | none =>
      simp only [hm] at h
      have hb := ih h
      simp only [List.length_cons]
      refine ⟨by omega, by omega, List.mem_cons_of_mem _ hb.2.2.1,
        fun hr => List.mem_cons_of_mem _ (hb.2.2.2 hr)⟩

theorem regexec_bounds {reg : Regex} {cursor : List Nat} {m : regmatches}
    (h : regexec reg cursor = some m) :
    3 ≤ m.whole.rm_eo ∧ m.whole.rm_eo ≤ strlen cursor := by
  have hb := regexec_from_bounds h
  unfold strlen
  omega

/-- Without a colon in the string there is no match; without a quote there is
no match of the string pattern. -/
theorem regexec_none_of_not_mem (reg : Regex) (cursor : List Nat)
    (h : 58 ∉ cstr cursor ∨ (reg = Regex.YML_STRING_REGEX ∧ 34 ∉ cstr cursor)) :
    regexec reg cursor = none := by
  cases hr : regexec reg cursor with
  | none => rfl
  | some m =>
    have hb := regexec_from_bounds hr
    rcases h with h | ⟨h1, h2⟩
    · exact absurd hb.2.2.1 h
    · exact absurd (hb.2.2.2 h1) h2

theorem cstr_drop (s : List Nat) (e : Nat) (h : e ≤ strlen s) :
    cstr (s.drop e) = (cstr s).drop e := by
  induction s generalizing e with
  | nil => simp [cstr_nil]
  | cons c s ih =>
    cases e with
    | zero => rfl
    | succ e =>
      unfold strlen at h
      rw [cstr_cons] at h ⊢
      by_cases hc : c = 0
      · simp [hc] at h
      · simp only [hc, if_false, List.length_cons, List.drop_succ_cons] at h ⊢
        exact ih e (by unfold strlen; omega)

theorem strlen_drop (s : List Nat) (e : Nat) (h : e ≤ strlen s) :
    strlen (s.drop e) = strlen s - e := by
  unfold strlen
  rw [cstr_drop s e h, List.length_drop]

/-- Once the number of iterations reaches `strlen / 3`, more iterations change
nothing. -/
theorem reg_apply_loop_stable {σ : Type} (reg : Regex)
    (func : σ → List Nat → regmatches → Int → σ × Int) (n d : Nat) (cursor : List Nat)
    (context : σ) (acc : Int) (h : strlen cursor / 3 ≤ n) :
    reg_apply_loop reg func (n + d) cursor context acc =
      reg_apply_loop reg func n cursor context acc := by
  induction n generalizing cursor context acc with
  | zero =>
    have hnone : regexec reg cursor = none := by
      cases hr : regexec reg cursor with
      | none => rfl
      | some m =>
        have := regexec_bounds hr
        omega
    rw [reg_apply_loop_nomatch _ _ _ _ _ _ hnone, reg_apply_loop_nomatch _ _ _ _ _ _ hnone]
  | succ n ih =>
    have hnd : n + 1 + d = (n + d) + 1 := by omega
    rw [hnd]
    unfold reg_apply_loop
    cases hr : regexec reg cursor with
    | none => rfl
    | some m =>
      simp only []
      apply ih
      have hb := regexec_bounds hr
      rw [strlen_drop _ _ hb.2]
      omega

/-- C16: every match found by `regexec` on either pattern takes at least three
bytes of the remaining string (and ends inside it), so the bound
`max_matches = strlen(str) / 3` of `reg_apply_func` never cuts the scan: the
loop run with any larger number of iterations ends by a failed `regexec`
after the same calls of the callback, with the same result. -/
theorem c16_cap_never_cuts {σ : Type} (reg : Regex)
    (func : σ → List Nat → regmatches → Int → σ × Int) (str : List Nat) (context : σ)
    (acc : Int) (n : Nat) (hn : strlen str / 3 ≤ n) :
    reg_apply_loop reg func n str context acc = reg_apply_func str reg func context acc ∧
      ∀ cursor m, regexec reg cursor = some m →
        3 ≤ m.whole.rm_eo ∧ m.whole.rm_eo ≤ strlen cursor := by
  refine ⟨?_, fun cursor m h => regexec_bounds h⟩
  unfold reg_apply_func
  obtain ⟨d, rfl⟩ := Nat.exists_eq_add_of_le hn
  exact reg_apply_loop_stable reg func _ d str context acc (Nat.le_refl _)

theorem c16_cap_never_cuts_witness :
    strlen (bytes "a:1b:2c:3") / 3 ≤ 1000 ∧
      (reg_apply_loop Regex.YML_INT_REGEX record_triple 1000 (bytes "a:1b:2c:3") [] 1).1 =
        [⟨bytes "a", bytes "1", 1⟩, ⟨bytes "b", bytes "2", 1⟩, ⟨bytes "c", bytes "3", 1⟩] ∧
      reg_apply_loop Regex.YML_INT_REGEX record_triple 1000 (bytes "a:1b:2c:3") [] 1 =
        reg_apply_func (bytes "a:1b:2c:3") Regex.YML_INT_REGEX record_triple [] 1 :=
  ⟨by decide, by decide,
    (c16_cap_never_cuts Regex.YML_INT_REGEX record_triple (bytes "a:1b:2c:3") [] 1 1000
      (by decide)).1⟩

/-! ## A line `KEY \s* : \s* LITERAL` alone in a text -/

theorem run_len_append (p : Nat → Bool) (l r : List Nat) (hl : ∀ x ∈ l, p x = true)
    (hr : ∀ c, r.head? = some c → p c = false) : run_len p (l ++ r) = l.length := by
  unfold run_len
  rw [List.takeWhile_append_of_pos hl]
  cases r with
  | nil => simp
  | cons c r1 => simp [List.takeWhile_cons, hr c rfl]

theorem isSpace_not_key {c : Nat} (h : isSpace c = true) : isKeyChar c = false := by
  simp only [isSpace, Bool.or_eq_true, beq_iff_eq, Bool.and_eq_true, decide_eq_true_eq] at h
  simp only [isKeyChar, isDigit, Bool.or_eq_false_iff, Bool.and_eq_false_iff,
    decide_eq_false_iff_not, beq_eq_false_iff_ne]
  omega

theorem isSpace_ne {c : Nat} (h : isSpace c = true) : c ≠ 0 ∧ c ≠ 34 ∧ c ≠ 58 := by
  simp only [isSpace, Bool.or_eq_true, beq_iff_eq, Bool.and_eq_true, decide_eq_true_eq] at h
  omega

theorem isKeyChar_ne {c : Nat} (h : isKeyChar c = true) : c ≠ 34 ∧ c ≠ 58 := by
  simp only [isKeyChar, isDigit, Bool.or_eq_true, beq_iff_eq, Bool.and_eq_true,
    decide_eq_true_eq] at h
  omega

theorem isDigit_ne {c : Nat} (h : isDigit c = true) : c ≠ 34 ∧ c ≠ 58 ∧ c ≠ 45 := by
  simp only [isDigit, Bool.and_eq_true, decide_eq_true_eq] at h
  omega

/-- The bytes of a literal: none is NUL, a quote, a colon or white space at
the head. -/
theorem is_int_literal_bytes {v : List Nat} (hv : is_int_literal v = true) :
    v ≠ [] ∧ (∀ c ∈ v, c ≠ 0 ∧ c ≠ 34 ∧ c ≠ 58) ∧
      ∀ c, v.head? = some c → isSpace c = false := by
  obtain ⟨neg, ds, rfl, hne, hd, _⟩ := is_int_literal_split hv
  obtain ⟨d, ds1, rfl⟩ := List.exists_cons_of_ne_nil hne
  refine ⟨by cases neg <;> simp, ?_, ?_⟩
  · intro c hc
    rcases List.mem_append.1 hc with h | h
    · cases neg <;> simp at h
      omega
    · exact ⟨isDigit_ne_zero (hd c h), (isDigit_ne (hd c h)).1, (isDigit_ne (hd c h)).2.1⟩
  · intro c hc
    cases neg
    · simp only [Bool.false_eq_true, if_false, List.nil_append, List.head?_cons,
        Option.some.injEq] at hc
      subst hc
      exact isDigit_not_space (hd _ (List.mem_cons_self _ _))
    · simp only [if_true, List.singleton_append, List.head?_cons, Option.some.injEq] at hc
      subst hc
      decide

theorem int_value_len_literal (v rest : List Nat) (hv : is_int_literal v = true)
    (hrest : ∀ c, rest.head? = some c → isDigit c = false) :
    int_value_len (v ++ rest) = some v.length := by
  obtain ⟨neg, ds, rfl, hne, hd, _⟩ := is_int_literal_split hv
  have hrun : run_len isDigit (ds ++ rest) = ds.length := run_len_append _ _ _ hd hrest
  have hlen : ds.length ≠ 0 := fun h => hne (List.length_eq_zero.1 h)
  unfold int_value_len
  cases neg
  · obtain ⟨d, ds1, rfl⟩ := List.exists_cons_of_ne_nil hne
    have h45 : d ≠ 45 := (isDigit_ne (hd d (List.mem_cons_self _ _))).2.2
    simp only [Bool.false_eq_true, if_false, List.nil_append, List.cons_append, List.head?_cons,
      Option.some.injEq, h45, List.drop_zero]
    rw [← List.cons_append, hrun]
    simp
  · simp only [if_true, List.singleton_append, List.cons_append, List.head?_cons,
      List.drop_succ_cons, List.drop_zero, List.nil_append, hrun, hlen, if_false,
      List.length_cons]
    congr 1
    omega

/-- The match of the integer pattern at the head of a line made of a key,
white space, a colon, white space and a literal. -/
theorem match_here_int_line (k w1 w2 v rest : List Nat) (hk0 : k ≠ [])
    (hk : ∀ c ∈ k, isKeyChar c = true) (hw1 : ∀ c ∈ w1, isSpace c = true)
    (hw2 : ∀ c ∈ w2, isSpace c = true) (hv : is_int_literal v = true)
    (hrest : ∀ c, rest.head? = some c → isDigit c = false) :
    match_here Regex.YML_INT_REGEX (k ++ (w1 ++ 58 :: (w2 ++ (v ++ rest)))) =
      some ⟨⟨0, k.length + w1.length + 1 + w2.length + v.length + newlines_len rest⟩,
        ⟨0, k.length⟩,
        ⟨k.length + w1.length + 1 + w2.length,
          k.length + w1.length + 1 + w2.length + v.length⟩⟩ := by
  obtain ⟨hv0, hvb, hvh⟩ := is_int_literal_bytes hv
  have h1 : run_len isKeyChar (k ++ (w1 ++ 58 :: (w2 ++ (v ++ rest)))) = k.length := by
    apply run_len_append _ _ _ hk
    intro c hc
    cases w1 with
    | nil =>
      simp only [List.nil_append, List.head?_cons, Option.some.injEq] at hc
      subst hc
      decide
    | cons a w =>
      simp only [List.cons_append, List.head?_cons, Option.some.injEq] at hc
      subst hc
      exact isSpace_not_key (hw1 _ (List.mem_cons_self _ _))
  have h2 : run_len isSpace (w1 ++ 58 :: (w2 ++ (v ++ rest))) = w1.length := by
    apply run_len_append _ _ _ hw1
    intro c hc
    simp only [List.head?_cons, Option.some.injEq] at hc
    subst hc
    decide
  have h3 : (k ++ (w1 ++ 58 :: (w2 ++ (v ++ rest)))).drop (k.length + w1.length) =
      58 :: (w2 ++ (v ++ rest)) := by
    rw [← List.append_assoc]
    exact List.drop_left' (by simp)
  have h4 : run_len isSpace (w2 ++ (v ++ rest)) = w2.length := by
    apply run_len_append _ _ _ hw2
    intro c hc
    obtain ⟨d, v1, rfl⟩ := List.exists_cons_of_ne_nil hv0
    simp only [List.cons_append, List.head?_cons, Option.some.injEq] at hc
    subst hc
    exact hvh _ rfl
  have h5 : int_value_len (v ++ rest) = some v.length := int_value_len_literal v rest hv hrest
  have h6 : (w2 ++ (v ++ rest)).drop (w2.length + v.length) = rest := by
    rw [← List.append_assoc]
    exact List.drop_left' (by simp)
  have hklen : k.length ≠ 0 := fun h => hk0 (List.length_eq_zero.1 h)
  unfold match_here
  simp only [h1, hklen, if_false, List.drop_left, h2, h3, h4, h5, h6]

theorem cstr_append_nul {x : List Nat} (hx : ∀ c ∈ x, c ≠ 0) (t : List Nat) :
    cstr (x ++ 0 :: t) = x := by
  have h := cstr_append_zero x t
  rw [cstr_eq_self hx] at h
  exact h

/-- The string held by the block `extract` fills: the bytes of the group. -/
theorem cstr_extract (cursor : List Nat) (g : regmatch_t) (h : g.rm_so ≤ strlen cursor) :
    cstr (extract cursor g) = ((cstr cursor).drop g.rm_so).take (g.rm_eo - g.rm_so) := by
  unfold extract strncpy
  rw [cstr_drop cursor g.rm_so h, List.append_assoc]
  have hx : ∀ c ∈ ((cstr cursor).drop g.rm_so).take (g.rm_eo - g.rm_so), c ≠ 0 :=
    fun c hc => not_zero_of_mem_cstr (List.mem_of_mem_drop (List.mem_of_mem_take hc))
  have ht : ∃ t, List.replicate (g.rm_eo - g.rm_so -
      (((cstr cursor).drop g.rm_so).take (g.rm_eo - g.rm_so)).length) 0 ++ [0] = 0 :: t := by
    cases (g.rm_eo - g.rm_so -
      (((cstr cursor).drop g.rm_so).take (g.rm_eo - g.rm_so)).length) with
    | zero => exact ⟨[], rfl⟩
    | succ j => exact ⟨List.replicate j 0 ++ [0], by rw [List.replicate_succ]; rfl⟩
  obtain ⟨t, ht⟩ := ht
  rw [ht]
  exact cstr_append_nul hx t

theorem regexec_of_match_here (reg : Regex) (text : List Nat) (m : regmatches)
    (hc : cstr text = text) (h : match_here reg text = some m) : regexec reg text = some m := by
  unfold regexec
  rw [hc]
  cases text with
  | nil => simp [match_here, run_len] at h
  | cons c s =>
    unfold regexec_from
    rw [h]
    simp [regmatches.shift]

/-- A scan that finds one match and nothing after it calls the callback once. -/
theorem reg_apply_func_single {σ : Type} (reg : Regex)
    (func : σ → List Nat → regmatches → Int → σ × Int) (text : List Nat) (context : σ)
    (acc : Int) (m : regmatches) (h : regexec reg text = some m)
    (hnone : regexec reg (text.drop m.whole.rm_eo) = none) :
    reg_apply_func text reg func context acc = func context text m acc := by
  have hb := regexec_bounds h
  unfold reg_apply_func
  obtain ⟨n, hn⟩ : ∃ n, strlen text / 3 = n + 1 := ⟨strlen text / 3 - 1, by omega⟩
  rw [hn]
  unfold reg_apply_loop
  rw [h]
  simp only []
  rw [reg_apply_loop_nomatch _ _ _ _ _ _ hnone]

/-- A text made of one line `KEY \s* : \s* LITERAL` and a rest without colon,
quote or NUL that does not go on with a digit: the integer pass emits the
triple of the line and the string pass emits nothing. -/
theorem emitted_int_line (k w1 w2 v rest : List Nat) (hk0 : k ≠ [])
    (hk : ∀ c ∈ k, isKeyChar c = true) (hw1 : ∀ c ∈ w1, isSpace c = true)
    (hw2 : ∀ c ∈ w2, isSpace c = true) (hv : is_int_literal v = true)
    (hrest : ∀ c, rest.head? = some c → isDigit c = false)
    (hr : ∀ c ∈ rest, c ≠ 0 ∧ c ≠ 34 ∧ c ≠ 58) :
    emitted (k ++ (w1 ++ 58 :: (w2 ++ (v ++ rest)))) = [⟨k, v, YML_INT_TYPE⟩] := by
  obtain ⟨hv0, hvb, _⟩ := is_int_literal_bytes hv
  have hall : ∀ c ∈ k ++ (w1 ++ 58 :: (w2 ++ (v ++ rest))), c ≠ 0 ∧ c ≠ 34 := by
    intro c hc
    simp only [List.mem_append, List.mem_cons] at hc
    rcases hc with h | h | h | h | h | h
    · exact ⟨isKeyChar_ne_zero (hk c h), (isKeyChar_ne (hk c h)).1⟩
    · exact ⟨(isSpace_ne (hw1 c h)).1, (isSpace_ne (hw1 c h)).2.1⟩
    · subst h
      decide
    · exact ⟨(isSpace_ne (hw2 c h)).1, (isSpace_ne (hw2 c h)).2.1⟩
    · exact ⟨(hvb c h).1, (hvb c h).2.1⟩
    · exact ⟨(hr c h).1, (hr c h).2.1⟩
  have hc : cstr (k ++ (w1 ++ 58 :: (w2 ++ (v ++ rest)))) =
      k ++ (w1 ++ 58 :: (w2 ++ (v ++ rest))) := cstr_eq_self (fun c h => (hall c h).1)
  have hm := regexec_of_match_here _ _ _ hc
    (match_here_int_line k w1 w2 v rest hk0 hk hw1 hw2 hv hrest)
  have hdrop : (k ++ (w1 ++ 58 :: (w2 ++ (v ++ rest)))).drop
      (k.length + w1.length + 1 + w2.length + v.length + newlines_len rest) =
      rest.drop (newlines_len rest) := by
    have : k ++ (w1 ++ 58 :: (w2 ++ (v ++ rest))) = (k ++ w1 ++ [58] ++ w2 ++ v) ++ rest := by
      simp
    rw [this, ← List.drop_drop]
    congr 1
    exact List.drop_left' (by simp; omega)
  have hnone : regexec Regex.YML_INT_REGEX ((k ++ (w1 ++ 58 :: (w2 ++ (v ++ rest)))).drop
      (k.length + w1.length + 1 + w2.length + v.length + newlines_len rest)) = none := by
    apply regexec_none_of_not_mem
    left
    rw [hdrop]
    intro h58
    have := List.mem_of_mem_drop ((List.takeWhile_sublist _).subset h58)
    exact (hr 58 this).2.2 rfl
  have hstr : regexec Regex.YML_STRING_REGEX (k ++ (w1 ++ 58 :: (w2 ++ (v ++ rest)))) =
      none := by
    apply regexec_none_of_not_mem
    right
    rw [hc]
    exact ⟨rfl, fun h => (hall 34 h).2 rfl⟩
  have hkey : cstr (extract (k ++ (w1 ++ 58 :: (w2 ++ (v ++ rest)))) ⟨0, k.length⟩) = k := by
    rw [cstr_extract _ _ (Nat.zero_le _), hc]
    simp
  have hval : cstr (extract (k ++ (w1 ++ 58 :: (w2 ++ (v ++ rest))))
      ⟨k.length + w1.length + 1 + w2.length,
        k.length + w1.length + 1 + w2.length + v.length⟩) = v := by
    rw [cstr_extract, hc]
    · have : k ++ (w1 ++ 58 :: (w2 ++ (v ++ rest))) = (k ++ w1 ++ [58] ++ w2) ++ (v ++ rest) := by
        simp
      rw [this]
      have hd : ((k ++ w1 ++ [58] ++ w2) ++ (v ++ rest)).drop
          (k.length + w1.length + 1 + w2.length) = v ++ rest :=
        List.drop_left' (by simp; omega)
      simp only [hd, Nat.add_sub_cancel_left, List.take_left]
    · unfold strlen
      rw [hc]
      simp only [List.length_append, List.length_cons]
      omega
  unfold emitted pass_triples
  rw [reg_apply_func_single _ _ _ _ _ _ hm hnone]
  unfold reg_apply_func
  rw [reg_apply_loop_nomatch _ _ _ _ _ _ hstr]
  simp only [record_triple, hkey, hval, List.nil_append, List.append_nil]

theorem digits_is_int_literal {a : List Nat} (ha0 : a ≠ []) (ha : ∀ c ∈ a, isDigit c = true) :
    is_int_literal a = true := by
  obtain ⟨d, a1, rfl⟩ := List.exists_cons_of_ne_nil ha0
  have h45 : d ≠ 45 := (isDigit_ne (ha d (List.mem_cons_self _ _))).2.2
  unfold is_int_literal
  simp only [List.head?_cons, Option.some.injEq, h45, if_false, List.isEmpty_cons, Bool.not_false,
    Bool.true_and, List.all_eq_true]
  exact ha

theorem digits_is_int_literal_neg {a : List Nat} (ha0 : a ≠ [])
    (ha : ∀ c ∈ a, isDigit c = true) : is_int_literal (45 :: a) = true := by
  obtain ⟨d, a1, rfl⟩ := List.exists_cons_of_ne_nil ha0
  unfold is_int_literal
  simp only [List.head?_cons, if_true, List.drop_succ_cons, List.drop_zero, List.isEmpty_cons,
    Bool.not_false, Bool.true_and, List.all_eq_true]
  exact ha

/-- On a table that is empty at construction, after the parse of a text whose
only triple is an integer triple for `k`, `get` for `k` copies the four bytes
of `atoi` of the literal and the chain of `k` holds that one cell. -/
theorem get_single_int (text k v buf : List Nat) (block : yml_hash_map)
    (hclean : ∀ i, block.elems i = []) (he : emitted text = [⟨k, v, YML_INT_TYPE⟩])
    (hk : ∀ c ∈ k, isKeyChar c = true) :
    ∃ p, execParser (initYmlParser text block) = some (1, p) ∧
      get (some p) (some k) (some buf) = some (1, some (int_bytes (atoi v) ++ buf.drop 4)) ∧
      p.map.elems (bucket k) = [⟨int_bytes (atoi v), k, 4⟩] := by
  have hb := eq_empty_map block hclean
  subst hb
  have hck : cstr k = k := cstr_eq_self (fun c hc => isKeyChar_ne_zero (hk c hc))
  refine ⟨parsed text, execParser_init text, ?_, ?_⟩
  · rw [get_parsed, he, hck]
    simp [stored_value, int_bytes]
  · simp only [parsed, parsed_map, he, List.map_cons, List.map_nil, List.foldl_cons,
      List.foldl_nil, add_elem, stored_elem, stored_value, if_true, empty_map,
      Function.update_same, List.nil_append]
    simp [int_bytes]

/-- C11 (refuted as stated): on `ratio: 3.14` the integer pattern matches
`ratio: 3`; `get` for `ratio` returns 1 and copies the `int` 3, and the index
is not empty. -/
theorem c11_float_line_counterexample :
    emitted (bytes "ratio: 3.14\n") = [⟨bytes "ratio", bytes "3", YML_INT_TYPE⟩] ∧
      (execParser (initYmlParser (bytes "ratio: 3.14\n") empty_map)).map
          (fun r => (r.1, get (some r.2) (some (bytes "ratio")) (some [7, 7, 7, 7]))) =
        some (1, some (1, some [3, 0, 0, 0])) ∧
      (execParser (initYmlParser (bytes "ratio: 3.14\n") empty_map)).map
          (fun r => r.2.map.elems (bucket (bytes "ratio"))) =
        some [⟨[3, 0, 0, 0], bytes "ratio", 4⟩] := by
  refine ⟨by decide, by decide, ?_⟩
  decide

/-- C11 (amended): a line whose value is a float is not skipped. For every
non-empty key `k` over `[A-Za-z0-9_]`, non-empty digit string `a` and digit
string `b`, the text `k: a.b` followed by a line feed makes the integer
pattern match `k: a`: the only triple emitted is the integer triple of `k`
and `a`. On a reader whose table is empty at construction `execParser` then
returns 1, the chain of `k` holds one cell, and `get` for `k` returns 1 and
copies the four bytes of `atoi(a)`. The keys are the strings over the bytes
`a`-`z`, `A`-`Z`, `0`-`9` and `_`, the digits the bytes `0`-`9`. -/
theorem c11_float_line_matched_as_int (k a b buf : List Nat) (block : yml_hash_map)
    (hclean : ∀ i, block.elems i = []) (hk0 : k ≠ [])
    (hk : ∀ c ∈ k, isKeyChar c = true) (ha0 : a ≠ []) (ha : ∀ c ∈ a, isDigit c = true)
    (hb : ∀ c ∈ b, isDigit c = true) :
    emitted (k ++ bytes ": " ++ a ++ bytes "." ++ b ++ bytes "\n") =
        [⟨k, a, YML_INT_TYPE⟩] ∧
      (∃ p, execParser (initYmlParser (k ++ bytes ": " ++ a ++ bytes "." ++ b ++ bytes "\n")
          block) = some (1, p) ∧
        get (some p) (some k) (some buf) = some (1, some (int_bytes (atoi a) ++ buf.drop 4)) ∧
        p.map.elems (bucket k) = [⟨int_bytes (atoi a), k, 4⟩]) ∧
      (∀ c, isKeyChar c = true ↔
        (97 ≤ c ∧ c ≤ 122) ∨ (65 ≤ c ∧ c ≤ 90) ∨ (48 ≤ c ∧ c ≤ 57) ∨ c = 95) ∧
      ∀ c, isDigit c = true ↔ 48 ≤ c ∧ c ≤ 57 := by
  have hb1 : bytes ": " = [58, 32] := by decide
  have hb2 : bytes "." = [46] := by decide
  have hb3 : bytes "\n" = [10] := by decide
  have htext : k ++ bytes ": " ++ a ++ bytes "." ++ b ++ bytes "\n" =
      k ++ ([] ++ 58 :: ([32] ++ (a ++ (46 :: (b ++ [10]))))) := by
    rw [hb1, hb2, hb3]
    simp
  have he : emitted (k ++ bytes ": " ++ a ++ bytes "." ++ b ++ bytes "\n") =
      [⟨k, a, YML_INT_TYPE⟩] := by
    rw [htext]
    apply emitted_int_line k [] [32] a (46 :: (b ++ [10])) hk0 hk (by simp) (by decide)
      (digits_is_int_literal ha0 ha)
    · intro c hc
      simp only [List.head?_cons, Option.some.injEq] at hc
      subst hc
      decide
    · intro c hc
      simp only [List.mem_cons, List.mem_append, List.mem_singleton, List.not_mem_nil,
        or_false] at hc
      rcases hc with h | h | h
      · subst h
        decide
      · exact ⟨isDigit_ne_zero (hb c h), (isDigit_ne (hb c h)).1, (isDigit_ne (hb c h)).2.1⟩
      · subst h
        decide
  exact ⟨he, get_single_int _ k a buf block hclean he hk, isKeyChar_iff, isDigit_iff⟩

theorem c11_float_line_matched_as_int_witness :
    emitted (bytes "ratio" ++ bytes ": " ++ bytes "3" ++ bytes "." ++ bytes "14" ++ bytes "\n") =
        [⟨bytes "ratio", bytes "3", YML_INT_TYPE⟩] ∧
      ∃ p, execParser (initYmlParser
          (bytes "ratio" ++ bytes ": " ++ bytes "3" ++ bytes "." ++ bytes "14" ++ bytes "\n")
          empty_map) = some (1, p) ∧
        get (some p) (some (bytes "ratio")) (some [7, 7, 7, 7, 7]) =
          some (1, some [3, 0, 0, 0, 7]) ∧
        p.map.elems (bucket (bytes "ratio")) = [⟨[3, 0, 0, 0], bytes "ratio", 4⟩] :=
  ⟨(c11_float_line_matched_as_int (bytes "ratio") (bytes "3") (bytes "14") [7, 7, 7, 7, 7]
      empty_map (fun _ => rfl) (by decide) (by decide) (by decide) (by decide) (by decide)).1,
    (c11_float_line_matched_as_int (bytes "ratio") (bytes "3") (bytes "14") [7, 7, 7, 7, 7]
      empty_map (fun _ => rfl) (by decide) (by decide) (by decide) (by decide) (by decide)).2.1⟩

/-! ## A line `KEY \s* : \s* "CONTENT"` alone in a text -/

theorem isStrChar_ne {c : Nat} (h : isStrChar c = true) : c ≠ 0 ∧ c ≠ 34 ∧ c ≠ 58 := by
  simp only [isStrChar, isKeyChar, isDigit, Bool.or_eq_true, beq_iff_eq, Bool.and_eq_true,
    decide_eq_true_eq] at h
  omega

theorem string_value_len_quoted (v rest : List Nat) (hv0 : v ≠ [])
    (hv : ∀ c ∈ v, isStrChar c = true) :
    string_value_len (34 :: (v ++ 34 :: rest)) = some v.length := by
  have hrun : run_len isStrChar (v ++ 34 :: rest) = v.length := by
    apply run_len_append _ _ _ hv
    intro c hc
    simp only [List.head?_cons, Option.some.injEq] at hc
    subst hc
    decide
  have hlen : v.length ≠ 0 := fun h => hv0 (List.length_eq_zero.1 h)
  unfold string_value_len
  simp only [hrun, hlen, if_false, List.drop_left, List.head?_cons, if_true]

/-- The match of the string pattern at the head of a line made of a key, white
space, a colon, white space and a quoted content. -/
theorem match_here_string_line (k w1 w2 v rest : List Nat) (hk0 : k ≠ [])
    (hk : ∀ c ∈ k, isKeyChar c = true) (hw1 : ∀ c ∈ w1, isSpace c = true)
    (hw2 : ∀ c ∈ w2, isSpace c = true) (hv0 : v ≠ []) (hv : ∀ c ∈ v, isStrChar c = true) :
    match_here Regex.YML_STRING_REGEX (k ++ (w1 ++ 58 :: (w2 ++ (34 :: (v ++ 34 :: rest))))) =
      some ⟨⟨0, k.length + w1.length + 1 + w2.length + v.length + 2 + newlines_len rest⟩,
        ⟨0, k.length⟩,
        ⟨k.length + w1.length + 1 + w2.length + 1,
          k.length + w1.length + 1 + w2.length + 1 + v.length⟩⟩ := by
  have h1 : run_len isKeyChar (k ++ (w1 ++ 58 :: (w2 ++ (34 :: (v ++ 34 :: rest))))) =
      k.length := by
    apply run_len_append _ _ _ hk
    intro c hc
    cases w1 with
    | nil =>
      simp only [List.nil_append, List.head?_cons, Option.some.injEq] at hc
      subst hc
      decide
    | cons a w =>
      simp only [List.cons_append, List.head?_cons, Option.some.injEq] at hc
      subst hc
      exact isSpace_not_key (hw1 _ (List.mem_cons_self _ _))
  have h2 : run_len isSpace (w1 ++ 58 :: (w2 ++ (34 :: (v ++ 34 :: rest)))) = w1.length := by
    apply run_len_append _ _ _ hw1
    intro c hc
    simp only [List.head?_cons, Option.some.injEq] at hc
    subst hc
    decide
  have h3 : (k ++ (w1 ++ 58 :: (w2 ++ (34 :: (v ++ 34 :: rest))))).drop
      (k.length + w1.length) = 58 :: (w2 ++ (34 :: (v ++ 34 :: rest))) := by
    rw [← List.append_assoc]
    exact List.drop_left' (by simp)
  have h4 : run_len isSpace (w2 ++ (34 :: (v ++ 34 :: rest))) = w2.length := by
    apply run_len_append _ _ _ hw2
    intro c hc
    simp only [List.head?_cons, Option.some.injEq] at hc
    subst hc
    decide
  have h5 := string_value_len_quoted v rest hv0 hv
  have h6 : (w2 ++ (34 :: (v ++ 34 :: rest))).drop (w2.length + v.length + 2) = rest := by
    have : w2 ++ (34 :: (v ++ 34 :: rest)) = (w2 ++ [34] ++ v ++ [34]) ++ rest := by simp
    rw [this]
    exact List.drop_left' (by simp; omega)
  have hklen : k.length ≠ 0 := fun h => hk0 (List.length_eq_zero.1 h)
  unfold match_here
  simp only [h1, hklen, if_false, List.drop_left, h2, h3, h4, h5, h6]

/-- In a string with one colon, a suffix that starts with a colon is what
follows that colon. -/
theorem colon_unique (A B : List Nat) (hA : 58 ∉ A) (hB : 58 ∉ B) (i : Nat) (s2 : List Nat)
    (h : (A ++ 58 :: B).drop i = 58 :: s2) : s2 = B := by
  induction A generalizing i with
  | nil =>
    cases i with
    | zero =>
      simp only [List.nil_append, List.drop_zero, List.cons.injEq, true_and] at h
      exact h.symm
    | succ i =>
      simp only [List.nil_append, List.drop_succ_cons] at h
      exact absurd (List.mem_of_mem_drop (h ▸ List.mem_cons_self 58 s2)) hB
  | cons a A ih =>
    cases i with
    | zero =>
      simp only [List.cons_append, List.drop_zero, List.cons.injEq] at h
      exact absurd (h.1 ▸ List.mem_cons_self a A) hA
    | succ i =>
      simp only [List.cons_append, List.drop_succ_cons] at h
      exact ih (fun hm => hA (List.mem_cons_of_mem _ hm)) i h

/-- A match of the integer pattern holds a colon that is followed, after white
space, by the value of an integer. -/
theorem match_here_int_after_colon {s : List Nat} {m : regmatches}
    (h : match_here Regex.YML_INT_REGEX s = some m) :
    ∃ i s2 n, s.drop i = 58 :: s2 ∧ int_value_len (s2.drop (run_len isSpace s2)) = some n := by
  unfold match_here at h
  simp only [] at h
  split at h
  · simp at h
  · split at h
    · rename_i s2 hs2
      split at h
      · simp at h
      · rename_i n hn
        exact ⟨_, s2, n, hs2, hn⟩
    · simp at h

theorem regexec_from_some_suffix {reg : Regex} {s : List Nat} {off : Nat} {m : regmatches}
    (h : regexec_from reg s off = some m) : ∃ j m1, match_here reg (s.drop j) = some m1 := by
  induction s generalizing off with
  | nil => simp [regexec_from] at h
  | cons c s ih =>
    unfold regexec_from at h
    cases hm : match_here reg (c :: s) with
    | some m1 => exact ⟨0, m1, hm⟩
    | none =>
      simp only [hm] at h
      obtain ⟨j, m1, hj⟩ := ih h
      exact ⟨j + 1, m1, hj⟩

/-- A string whose only colon is followed, after white space, by something
that is no integer value holds no match of the integer pattern. -/
theorem regexec_int_none_one_colon (A B : List Nat) (hA : 58 ∉ A) (hB : 58 ∉ B)
    (hc : cstr (A ++ 58 :: B) = A ++ 58 :: B)
    (hv : int_value_len (B.drop (run_len isSpace B)) = none) :
    regexec Regex.YML_INT_REGEX (A ++ 58 :: B) = none := by
  cases hr : regexec Regex.YML_INT_REGEX (A ++ 58 :: B) with
  | none => rfl
  | some m =>
    unfold regexec at hr
    rw [hc] at hr
    obtain ⟨j, m1, hj⟩ := regexec_from_some_suffix hr
    obtain ⟨i, s2, n, hs2, hn⟩ := match_here_int_after_colon hj
    rw [List.drop_drop] at hs2
    have := colon_unique A B hA hB _ s2 hs2
    subst this
    rw [hv] at hn
    cases hn

/-- A text made of one line `KEY \s* : \s* "CONTENT"` and a rest without colon
or NUL: the string pass emits the triple of the line and the integer pass
emits nothing. -/
theorem emitted_string_line (k w1 w2 v rest : List Nat) (hk0 : k ≠ [])
    (hk : ∀ c ∈ k, isKeyChar c = true) (hw1 : ∀ c ∈ w1, isSpace c = true)
    (hw2 : ∀ c ∈ w2, isSpace c = true) (hv0 : v ≠ []) (hv : ∀ c ∈ v, isStrChar c = true)
    (hr : ∀ c ∈ rest, c ≠ 0 ∧ c ≠ 58) :
    emitted (k ++ (w1 ++ 58 :: (w2 ++ (34 :: (v ++ 34 :: rest))))) =
      [⟨k, v, YML_STRING_TYPE⟩] := by
  have hB : ∀ c ∈ w2 ++ (34 :: (v ++ 34 :: rest)), c ≠ 0 ∧ c ≠ 58 := by
    intro c hc
    simp only [List.mem_append, List.mem_cons] at hc
    rcases hc with h | h | h | h | h
    · exact ⟨(isSpace_ne (hw2 c h)).1, (isSpace_ne (hw2 c h)).2.2⟩
    · subst h
      decide
    · exact ⟨(isStrChar_ne (hv c h)).1, (isStrChar_ne (hv c h)).2.2⟩
    · subst h
      decide
    · exact hr c h
  have hA : ∀ c ∈ k ++ w1, c ≠ 0 ∧ c ≠ 58 := by
    intro c hc
    rcases List.mem_append.1 hc with h | h
    · exact ⟨isKeyChar_ne_zero (hk c h), (isKeyChar_ne (hk c h)).2⟩
    · exact ⟨(isSpace_ne (hw1 c h)).1, (isSpace_ne (hw1 c h)).2.2⟩
  have hsplit : k ++ (w1 ++ 58 :: (w2 ++ (34 :: (v ++ 34 :: rest)))) =
      (k ++ w1) ++ 58 :: (w2 ++ (34 :: (v ++ 34 :: rest))) := by simp
  have hc : cstr (k ++ (w1 ++ 58 :: (w2 ++ (34 :: (v ++ 34 :: rest))))) =
      k ++ (w1 ++ 58 :: (w2 ++ (34 :: (v ++ 34 :: rest)))) := by
    apply cstr_eq_self
    rw [hsplit]
    intro c hc
    rcases List.mem_append.1 hc with h | h
    · exact (hA c h).1
    · rcases List.mem_cons.1 h with h | h
      · subst h
        decide
      · exact (hB c h).1
  have hint : regexec Regex.YML_INT_REGEX
      (k ++ (w1 ++ 58 :: (w2 ++ (34 :: (v ++ 34 :: rest))))) = none := by
    rw [hsplit]
    apply regexec_int_none_one_colon _ _ (fun h => (hA 58 h).2 rfl) (fun h => (hB 58 h).2 rfl)
    · rw [← hsplit]
      exact hc
    · have hrun : run_len isSpace (w2 ++ (34 :: (v ++ 34 :: rest))) = w2.length := by
        apply run_len_append _ _ _ hw2
        intro c hc
        simp only [List.head?_cons, Option.some.injEq] at hc
        subst hc
        decide
      rw [hrun, List.drop_left]
      simp [int_value_len, run_len, isDigit]
  have hm := regexec_of_match_here _ _ _ hc
    (match_here_string_line k w1 w2 v rest hk0 hk hw1 hw2 hv0 hv)
  have hdrop : (k ++ (w1 ++ 58 :: (w2 ++ (34 :: (v ++ 34 :: rest))))).drop
      (k.length + w1.length + 1 + w2.length + v.length + 2 + newlines_len rest) =
      rest.drop (newlines_len rest) := by
    have : k ++ (w1 ++ 58 :: (w2 ++ (34 :: (v ++ 34 :: rest)))) =
        (k ++ w1 ++ [58] ++ w2 ++ [34] ++ v ++ [34]) ++ rest := by simp
    rw [this, ← List.drop_drop]
    congr 1
    exact List.drop_left' (by simp; omega)
  have hnone : regexec Regex.YML_STRING_REGEX
      ((k ++ (w1 ++ 58 :: (w2 ++ (34 :: (v ++ 34 :: rest))))).drop
        (k.length + w1.length + 1 + w2.length + v.length + 2 + newlines_len rest)) = none := by
    apply regexec_none_of_not_mem
    left
    rw [hdrop]
    intro h58
    have := List.mem_of_mem_drop ((List.takeWhile_sublist _).subset h58)
    exact (hr 58 this).2 rfl
  have hkey : cstr (extract (k ++ (w1 ++ 58 :: (w2 ++ (34 :: (v ++ 34 :: rest)))))
      ⟨0, k.length⟩) = k := by
    rw [cstr_extract _ _ (Nat.zero_le _), hc]
    simp
  have hval : cstr (extract (k ++ (w1 ++ 58 :: (w2 ++ (34 :: (v ++ 34 :: rest)))))
      ⟨k.length + w1.length + 1 + w2.length + 1,
        k.length + w1.length + 1 + w2.length + 1 + v.length⟩) = v := by
    rw [cstr_extract, hc]
    · have : k ++ (w1 ++ 58 :: (w2 ++ (34 :: (v ++ 34 :: rest)))) =
          (k ++ w1 ++ [58] ++ w2 ++ [34]) ++ (v ++ 34 :: rest) := by simp
      rw [this]
      have hd : ((k ++ w1 ++ [58] ++ w2 ++ [34]) ++ (v ++ 34 :: rest)).drop
          (k.length + w1.length + 1 + w2.length + 1) = v ++ 34 :: rest :=
        List.drop_left' (by simp; omega)
      simp only [hd, Nat.add_sub_cancel_left, List.take_left]
    · unfold strlen
      rw [hc]
      simp only [List.length_append, List.length_cons]
      omega
  unfold emitted pass_triples
  rw [reg_apply_func_single _ _ _ _ _ _ hm hnone]
  unfold reg_apply_func
  rw [reg_apply_loop_nomatch _ _ _ _ _ _ hint]
  simp only [record_triple, hkey, hval, List.nil_append]

/-- On a table that is empty at construction, after the parse of a text whose
only triple is a string triple for `k`, `get` for `k` copies the content and
one NUL. -/
theorem get_single_string (text k v buf : List Nat) (block : yml_hash_map)
    (hclean : ∀ i, block.elems i = []) (he : emitted text = [⟨k, v, YML_STRING_TYPE⟩])
    (hk : ∀ c ∈ k, isKeyChar c = true) :
    ∃ p, execParser (initYmlParser text block) = some (1, p) ∧
      get (some p) (some k) (some buf) =
        some (1, some (v ++ [0] ++ buf.drop (v.length + 1))) := by
  have hb := eq_empty_map block hclean
  subst hb
  have hck : cstr k = k := cstr_eq_self (fun c hc => isKeyChar_ne_zero (hk c hc))
  refine ⟨parsed text, execParser_init text, ?_⟩
  rw [get_parsed, he, hck]
  simp [stored_value, YML_STRING_TYPE, YML_INT_TYPE]

/-- C18 (refuted as stated): with a line feed between the colon and the value,
or between the key and the colon, the integer pattern still matches: `get`
for `k` returns 1 and copies the `int` 7. -/
theorem c18_line_break_counterexample :
    emitted (bytes "k:\n7\n") = [⟨bytes "k", bytes "7", YML_INT_TYPE⟩] ∧
      emitted (bytes "k\n: 7\n") = [⟨bytes "k", bytes "7", YML_INT_TYPE⟩] ∧
      (execParser (initYmlParser (bytes "k:\n7\n") empty_map)).map
          (fun r => (r.1, get (some r.2) (some (bytes "k")) (some [9, 9, 9, 9]))) =
        some (1, some (1, some [7, 0, 0, 0])) ∧
      (execParser (initYmlParser (bytes "k\n: 7\n") empty_map)).map
          (fun r => (r.1, get (some r.2) (some (bytes "k")) (some [9, 9, 9, 9]))) =
        some (1, some (1, some [7, 0, 0, 0])) := by
  refine ⟨by decide, by decide, ?_, ?_⟩
  · decide
  · decide

/-- C18 (amended): between the key, the colon and the value both patterns
accept any run of white space in the sense of `\s`, which is one of the six
bytes space, `\t`, `\n`, `\v`, `\f`, `\r`, so a match may span lines. For
every non-empty key `k` over `[A-Za-z0-9_]`, runs `w1` and `w2` of such bytes,
non-empty digit string `d` and non-empty content `v` over `[A-Za-z0-9_ ]`: the
text `k w1 : w2 d` with a line feed emits the integer triple of `k` and `d`
and nothing else, the text `k w1 : w2 "v"` with a line feed emits the string
triple of `k` and `v` and nothing else; in particular a line feed between the
colon and the value, or between the key and the colon, does not prevent the
match. On a reader whose table is empty at construction `execParser` then
returns 1 and `get` for `k` returns 1 and copies the four bytes of `atoi(d)`,
respectively `v` and one NUL. -/
theorem c18_white_space_spans_lines (k w1 w2 d v buf : List Nat) (block : yml_hash_map)
    (hclean : ∀ i, block.elems i = []) (hk0 : k ≠ [])
    (hk : ∀ c ∈ k, isKeyChar c = true) (hw1 : ∀ c ∈ w1, isSpace c = true)
    (hw2 : ∀ c ∈ w2, isSpace c = true) (hd0 : d ≠ []) (hd : ∀ c ∈ d, isDigit c = true)
    (hv0 : v ≠ []) (hv : ∀ c ∈ v, isStrChar c = true) :
    (∀ c, isSpace c = true ↔ c = 32 ∨ c = 9 ∨ c = 10 ∨ c = 11 ∨ c = 12 ∨ c = 13) ∧
    (emitted (k ++ w1 ++ bytes ":" ++ w2 ++ d ++ bytes "\n") = [⟨k, d, YML_INT_TYPE⟩] ∧
      ∃ p, execParser (initYmlParser (k ++ w1 ++ bytes ":" ++ w2 ++ d ++ bytes "\n") block) =
          some (1, p) ∧
        get (some p) (some k) (some buf) =
          some (1, some (int_bytes (atoi d) ++ buf.drop 4))) ∧
    (emitted (k ++ w1 ++ bytes ":" ++ w2 ++ bytes "\"" ++ v ++ bytes "\"\n") =
        [⟨k, v, YML_STRING_TYPE⟩] ∧
      ∃ p, execParser (initYmlParser
          (k ++ w1 ++ bytes ":" ++ w2 ++ bytes "\"" ++ v ++ bytes "\"\n") block) = some (1, p) ∧
        get (some p) (some k) (some buf) =
          some (1, some (v ++ [0] ++ buf.drop (v.length + 1)))) ∧
    emitted (k ++ bytes ":\n" ++ d ++ bytes "\n") = [⟨k, d, YML_INT_TYPE⟩] ∧
    emitted (k ++ bytes "\n: " ++ d ++ bytes "\n") = [⟨k, d, YML_INT_TYPE⟩] ∧
    (∀ c, isKeyChar c = true ↔
      (97 ≤ c ∧ c ≤ 122) ∨ (65 ≤ c ∧ c ≤ 90) ∨ (48 ≤ c ∧ c ≤ 57) ∨ c = 95) ∧
    (∀ c, isDigit c = true ↔ 48 ≤ c ∧ c ≤ 57) ∧
    ∀ c, isStrChar c = true ↔
      (97 ≤ c ∧ c ≤ 122) ∨ (65 ≤ c ∧ c ≤ 90) ∨ (48 ≤ c ∧ c ≤ 57) ∨ c = 95 ∨ c = 32 := by
  have hb0 : bytes ":" = [58] := by decide
  have hb1 : bytes ":\n" = [58, 10] := by decide
  have hb2 : bytes "\n: " = [10, 58, 32] := by decide
  have hb3 : bytes "\n" = [10] := by decide
  have hb4 : bytes "\"" = [34] := by decide
  have hb5 : bytes "\"\n" = [34, 10] := by decide
  have hlit := digits_is_int_literal hd0 hd
  have hrest : ∀ c, ([10] : List Nat).head? = some c → isDigit c = false := by
    intro c hc
    simp only [List.head?_cons, Option.some.injEq] at hc
    subst hc
    decide
  have hr : ∀ c ∈ ([10] : List Nat), c ≠ 0 ∧ c ≠ 34 ∧ c ≠ 58 := by
    intro c hc
    simp only [List.mem_singleton] at hc
    subst hc
    decide
  have hr2 : ∀ c ∈ ([10] : List Nat), c ≠ 0 ∧ c ≠ 58 := fun c hc => ⟨(hr c hc).1, (hr c hc).2.2⟩
  have he0 : emitted (k ++ w1 ++ bytes ":" ++ w2 ++ d ++ bytes "\n") =
      [⟨k, d, YML_INT_TYPE⟩] := by
    have htext : k ++ w1 ++ bytes ":" ++ w2 ++ d ++ bytes "\n" =
        k ++ (w1 ++ 58 :: (w2 ++ (d ++ [10]))) := by
      rw [hb0, hb3]
      simp
    rw [htext]
    exact emitted_int_line k w1 w2 d [10] hk0 hk hw1 hw2 hlit hrest hr
  have hes : emitted (k ++ w1 ++ bytes ":" ++ w2 ++ bytes "\"" ++ v ++ bytes "\"\n") =
      [⟨k, v, YML_STRING_TYPE⟩] := by
    have htext : k ++ w1 ++ bytes ":" ++ w2 ++ bytes "\"" ++ v ++ bytes "\"\n" =
        k ++ (w1 ++ 58 :: (w2 ++ (34 :: (v ++ 34 :: [10])))) := by
      rw [hb0, hb4, hb5]
      simp
    rw [htext]
    exact emitted_string_line k w1 w2 v [10] hk0 hk hw1 hw2 hv0 hv hr2
  have he1 : emitted (k ++ bytes ":\n" ++ d ++ bytes "\n") = [⟨k, d, YML_INT_TYPE⟩] := by
    have htext : k ++ bytes ":\n" ++ d ++ bytes "\n" =
        k ++ ([] ++ 58 :: ([10] ++ (d ++ [10]))) := by
      rw [hb1, hb3]
      simp
    rw [htext]
    exact emitted_int_line k [] [10] d [10] hk0 hk (by simp) (by decide) hlit hrest hr
  have he2 : emitted (k ++ bytes "\n: " ++ d ++ bytes "\n") = [⟨k, d, YML_INT_TYPE⟩] := by
    have htext : k ++ bytes "\n: " ++ d ++ bytes "\n" =
        k ++ ([10] ++ 58 :: ([32] ++ (d ++ [10]))) := by
      rw [hb2, hb3]
      simp
    rw [htext]
    exact emitted_int_line k [10] [32] d [10] hk0 hk (by decide) (by decide) hlit hrest hr
  refine ⟨?_, ⟨he0, ?_⟩, ⟨hes, ?_⟩, he1, he2, isKeyChar_iff, isDigit_iff, isStrChar_iff⟩
  · intro c
    simp only [isSpace, Bool.or_eq_true, beq_iff_eq, Bool.and_eq_true, decide_eq_true_eq]
    omega
  · obtain ⟨p, h1, h2, _⟩ := get_single_int _ k d buf block hclean he0 hk
    exact ⟨p, h1, h2⟩
  · exact get_single_string _ k v buf block hclean hes hk

theorem c18_white_space_spans_lines_witness :
    (emitted (bytes "port" ++ [9, 11] ++ bytes ":" ++ [13, 10, 12, 32] ++ bytes "8080" ++
        bytes "\n") = [⟨bytes "port", bytes "8080", YML_INT_TYPE⟩] ∧
      ∃ p, execParser (initYmlParser (bytes "port" ++ [9, 11] ++ bytes ":" ++ [13, 10, 12, 32] ++
          bytes "8080" ++ bytes "\n") empty_map) = some (1, p) ∧
        get (some p) (some (bytes "port")) (some [7, 7, 7, 7]) =
          some (1, some [144, 31, 0, 0])) ∧
    (emitted (bytes "port" ++ [9, 11] ++ bytes ":" ++ [13, 10, 12, 32] ++ bytes "\"" ++
        bytes "a b" ++ bytes "\"\n") = [⟨bytes "port", bytes "a b", YML_STRING_TYPE⟩] ∧
      ∃ p, execParser (initYmlParser (bytes "port" ++ [9, 11] ++ bytes ":" ++ [13, 10, 12, 32] ++
          bytes "\"" ++ bytes "a b" ++ bytes "\"\n") empty_map) = some (1, p) ∧
        get (some p) (some (bytes "port")) (some [7, 7, 7, 7, 7]) =
          some (1, some [97, 32, 98, 0, 7])) ∧
    emitted (bytes "port" ++ bytes ":\n" ++ bytes "8080" ++ bytes "\n") =
      [⟨bytes "port", bytes "8080", YML_INT_TYPE⟩] ∧
    emitted (bytes "port" ++ bytes "\n: " ++ bytes "8080" ++ bytes "\n") =
      [⟨bytes "port", bytes "8080", YML_INT_TYPE⟩] :=
  ⟨(c18_white_space_spans_lines (bytes "port") [9, 11] [13, 10, 12, 32] (bytes "8080")
      (bytes "a b") [7, 7, 7, 7] empty_map (fun _ => rfl) (by decide) (by decide) (by decide)
      (by decide) (by decide) (by decide) (by decide) (by decide)).2.1,
    (c18_white_space_spans_lines (bytes "port") [9, 11] [13, 10, 12, 32] (bytes "8080")
      (bytes "a b") [7, 7, 7, 7, 7] empty_map (fun _ => rfl) (by decide) (by decide) (by decide)
      (by decide) (by decide) (by decide) (by decide) (by decide)).2.2.1,
    (c18_white_space_spans_lines (bytes "port") [9, 11] [13, 10, 12, 32] (bytes "8080")
      (bytes "a b") [7, 7, 7, 7] empty_map (fun _ => rfl) (by decide) (by decide) (by decide)
      (by decide) (by decide) (by decide) (by decide) (by decide)).2.2.2.1,
    (c18_white_space_spans_lines (bytes "port") [9, 11] [13, 10, 12, 32] (bytes "8080")
      (bytes "a b") [7, 7, 7, 7] empty_map (fun _ => rfl) (by decide) (by decide) (by decide)
      (by decide) (by decide) (by decide) (by decide) (by decide)).2.2.2.2.1⟩

/-! ## The value of an integer match is a literal -/

theorem take_run_len (p : Nat → Bool) (s : List Nat) : s.take (run_len p s) = s.takeWhile p := by
  unfold run_len
  induction s with
  | nil => rfl
  | cons c s ih =>
    by_cases hc : p c = true
    · simp [List.takeWhile_cons, hc, ih]
    · simp [List.takeWhile_cons, hc]

theorem int_value_len_take {t : List Nat} {n : Nat} (h : int_value_len t = some n) :
    is_int_literal (t.take n) = true := by
  unfold int_value_len at h
  by_cases h45 : t.head? = some 45
  · cases t with
    | nil => simp at h45
    | cons c t1 =>
      simp only [List.head?_cons, Option.some.injEq] at h45
      subst h45
      simp only [List.head?_cons, if_true, List.drop_succ_cons, List.drop_zero] at h
      split at h
      · simp at h
      · rename_i hd
        simp only [Option.some.injEq] at h
        subst h
        have hadd : 1 + run_len isDigit t1 = run_len isDigit t1 + 1 := by omega
        rw [hadd, List.take_succ_cons, take_run_len]
        apply digits_is_int_literal_neg
        · intro hnil
          apply hd
          unfold run_len
          rw [hnil]
          rfl
        · intro d hd1
          exact List.mem_takeWhile_imp hd1
  · simp only [h45, if_false, List.drop_zero] at h
    split at h
    · simp at h
    · rename_i hd
      simp only [Option.some.injEq] at h
      subst h
      rw [Nat.zero_add, take_run_len]
      apply digits_is_int_literal
      · intro hnil
        apply hd
        unfold run_len
        rw [hnil]
        rfl
      · intro d hd1
        exact List.mem_takeWhile_imp hd1

theorem match_here_int_value {s : List Nat} {m : regmatches}
    (h : match_here Regex.YML_INT_REGEX s = some m) :
    m.value.rm_so ≤ s.length ∧
      is_int_literal ((s.drop m.value.rm_so).take (m.value.rm_eo - m.value.rm_so)) = true := by
  unfold match_here at h
  simp only [] at h
  split at h
  · simp at h
  · split at h
    · rename_i s2 hs2
      have hlen : (s.drop (run_len isKeyChar s +
          run_len isSpace (s.drop (run_len isKeyChar s)))).length = s2.length + 1 := by
        rw [hs2]
        rfl
      rw [List.length_drop] at hlen
      have hw2 := run_len_le isSpace s2
      split at h
      · simp at h
      · rename_i n hn
        simp only [Option.some.injEq] at h
        subst h
        have hdrop : s.drop (run_len isKeyChar s + run_len isSpace (s.drop (run_len isKeyChar s))
            + 1 + run_len isSpace s2) = s2.drop (run_len isSpace s2) := by
          rw [Nat.add_assoc, ← List.drop_drop, hs2, Nat.add_comm 1, List.drop_succ_cons]
        refine ⟨by simp only []; omega, ?_⟩
        simp only [hdrop, Nat.add_sub_cancel_left]
        exact int_value_len_take hn
    · simp at h

theorem regexec_from_int_value {s : List Nat} {off : Nat} {m : regmatches}
    (h : regexec_from Regex.YML_INT_REGEX s off = some m) :
    off ≤ m.value.rm_so ∧ m.value.rm_so ≤ off + s.length ∧
      is_int_literal ((s.drop (m.value.rm_so - off)).take (m.value.rm_eo - m.value.rm_so)) =
        true := by
  induction s generalizing off with
  | nil => simp [regexec_from] at h
  | cons c s ih =>
    unfold regexec_from at h
    cases hm : match_here Regex.YML_INT_REGEX (c :: s) with
    | some m1 =>
      simp only [hm, Option.some.injEq] at h
      subst h
      have hb := match_here_int_value hm
      simp only [regmatches.shift]
      refine ⟨by omega, by omega, ?_⟩
      have e1 : m1.value.rm_so + off - off = m1.value.rm_so := by omega
      have e2 : m1.value.rm_eo + off - (m1.value.rm_so + off) =
          m1.value.rm_eo - m1.value.rm_so := by omega
      rw [e1, e2]
      exact hb.2
    | none =>
      simp only [hm] at h
      have hb := ih h
      simp only [List.length_cons]
      refine ⟨by omega, by omega, ?_⟩
      have e1 : m.value.rm_so - off = (m.value.rm_so - (off + 1)) + 1 := by omega
      rw [e1, List.drop_succ_cons]
      exact hb.2.2

/-- Every triple recorded by a scan satisfies what every single match
guarantees. -/
theorem record_loop_forall (reg : Regex) (acc : Int) (P : Triple → Prop)
    (hP : ∀ cursor m, regexec reg cursor = some m →
      P ⟨cstr (extract cursor m.key), cstr (extract cursor m.value), acc⟩)
    (n : Nat) (cursor : List Nat) (t : Triple)
    (ht : t ∈ (reg_apply_loop reg record_triple n cursor [] acc).1) : P t := by
  induction n generalizing cursor with
  | zero => simp [reg_apply_loop] at ht
  | succ n ih =>
    unfold reg_apply_loop at ht
    cases hm : regexec reg cursor with
    | none => simp [hm] at ht
    | some m =>
      simp only [hm, record_triple] at ht
      rw [record_loop] at ht
      simp only [List.nil_append, List.mem_append, List.mem_singleton] at ht
      rcases ht with h1 | h1
      · subst h1
        exact hP cursor m hm
      · exact ih _ h1

/-- The value of every triple of the integer pass is an integer literal. -/
theorem emitted_int_literal (text : List Nat) (t : Triple) (ht : t ∈ emitted text)
    (hk : t.kind = YML_INT_TYPE) : is_int_literal t.value = true := by
  unfold emitted pass_triples reg_apply_func at ht
  rcases List.mem_append.1 ht with h | h
  · refine record_loop_forall Regex.YML_INT_REGEX YML_INT_TYPE
      (fun t => is_int_literal t.value = true) ?_ _ _ t h
    intro cursor m hm
    have hb := regexec_from_int_value hm
    simp only []
    rw [cstr_extract cursor m.value (by unfold strlen; omega)]
    exact hb.2.2
  · have := (record_loop_mem _ _ _ _ _ h).2.2
    rw [this] at hk
    exact absurd hk (by decide)

/-- On a literal, `atoi` is the value saturated at the bounds of `long`, then
cut to its low-order 32 bits. -/
theorem atoi_literal_saturated (lit : List Nat) (h : is_int_literal lit = true) :
    atoi lit = wrap32 (if literal_value lit > LONG_MAX then LONG_MAX
      else if literal_value lit < LONG_MIN then LONG_MIN else literal_value lit) := by
  obtain ⟨neg, ds, rfl, hne, hd, hv⟩ := is_int_literal_split h
  have hc : cstr ((if neg then [45] else []) ++ ds) = (if neg then [45] else []) ++ ds := by
    apply cstr_eq_self
    intro c hc
    rcases List.mem_append.1 hc with h1 | h1
    · cases neg <;> simp at h1
      omega
    · exact isDigit_ne_zero (hd c h1)
  unfold atoi
  rw [hc, strtol_digits ds hne hd neg, hv]

theorem wrap32_spec (n : Int) :
    (wrap32 n - n) % 2 ^ 32 = 0 ∧ -2 ^ 31 ≤ wrap32 n ∧ wrap32 n ≤ 2 ^ 31 - 1 := by
  unfold wrap32
  norm_num
  omega

/-- C19 (refuted as stated): the literal 9223372036854775808 (two to the 63)
has all its low-order 32 bits at zero, but the stored `int` is -1. -/
theorem c19_overflow_counterexample :
    emitted (bytes "x: 9223372036854775808\n") =
        [⟨bytes "x", bytes "9223372036854775808", YML_INT_TYPE⟩] ∧
      literal_value (bytes "9223372036854775808") = 2 ^ 63 ∧
      wrap32 (2 ^ 63) = 0 ∧
      (execParser (initYmlParser (bytes "x: 9223372036854775808\n") empty_map)).map
          (fun r => (r.1, get (some r.2) (some (bytes "x")) (some [7, 7, 7, 7]))) =
        some (1, some (1, some [255, 255, 255, 255])) ∧
      int_of_bytes [255, 255, 255, 255] = -1 := by
  refine ⟨by decide, by decide, by decide, ?_, by decide⟩
  decide

/-- C19 (amended): overflow is not detected. For every triple the integer pass
emits, the value is a literal and `atoi` gives an `int`: when the value `n`
of the literal lies in the range of `long` (inside the range of `int` or
not), that `int` is `n` reduced to its low-order 32 bits in two's
complement; beyond the range of `long` the conversion saturates first: -1
above `LONG_MAX` and 0 below `LONG_MIN`, where `long` has 64 bits. On a reader whose table is empty at
construction `execParser` returns 1 and the chain of the key holds a cell of
four bytes with that `int`. -/
theorem c19_overflow_wraps_within_long (text : List Nat) (block : yml_hash_map)
    (hclean : ∀ i, block.elems i = []) (t : Triple) (ht : t ∈ emitted text)
    (hk : t.kind = YML_INT_TYPE) :
    is_int_literal t.value = true ∧
      ∃ p, execParser (initYmlParser text block) = some (1, p) ∧
        (⟨int_bytes (atoi t.value), t.key, 4⟩ : yml_hash_map_elem) ∈
          p.map.elems (bucket t.key) ∧
        int_of_bytes (int_bytes (atoi t.value)) = atoi t.value ∧
        (LONG_MIN ≤ literal_value t.value ∧ literal_value t.value ≤ LONG_MAX →
          atoi t.value = wrap32 (literal_value t.value) ∧
            (atoi t.value - literal_value t.value) % 2 ^ 32 = 0 ∧
            -2 ^ 31 ≤ atoi t.value ∧ atoi t.value ≤ 2 ^ 31 - 1) ∧
        (LONG_MAX < literal_value t.value → atoi t.value = -1) ∧
        (literal_value t.value < LONG_MIN → atoi t.value = 0) ∧
        LONG_MAX = 2 ^ 63 - 1 ∧ LONG_MIN = -2 ^ 63 := by
  have hb := eq_empty_map block hclean
  subst hb
  have hlit := emitted_int_literal text t ht hk
  have hat := atoi_literal_saturated t.value hlit
  have hrange : -2 ^ 31 ≤ atoi t.value ∧ atoi t.value ≤ 2 ^ 31 - 1 := by
    rw [hat]
    exact (wrap32_spec _).2
  refine ⟨hlit, parsed text, execParser_init text, ?_, ?_, ?_, ?_, ?_, by decide, by decide⟩
  · have hs : stored_elem t = ⟨int_bytes (atoi t.value), t.key, 4⟩ := by
      simp [stored_elem, stored_value, hk, int_bytes]
    rw [← hs]
    simp only [parsed, parsed_map]
    rw [mem_foldl_add_elem]
    exact Or.inr ⟨List.mem_map_of_mem _ ht, rfl⟩
  · have := int_of_bytes_int_bytes (atoi t.value) [] hrange.1 hrange.2
    simpa using this
  · rintro ⟨hlo, hhi⟩
    have h1 : ¬ literal_value t.value > LONG_MAX := by omega
    have h2 : ¬ literal_value t.value < LONG_MIN := by omega
    rw [if_neg h1, if_neg h2] at hat
    refine ⟨hat, ?_, hrange⟩
    rw [hat]
    exact (wrap32_spec _).1
  · intro hgt
    rw [if_pos hgt] at hat
    rw [hat]
    decide
  · intro hlt
    have h1 : ¬ literal_value t.value > LONG_MAX := by
      unfold LONG_MIN at hlt
      unfold LONG_MAX
      norm_num at hlt ⊢
      omega
    rw [if_neg h1, if_pos hlt] at hat
    rw [hat]
    decide

theorem c19_overflow_wraps_within_long_witness :
    (⟨bytes "x", bytes "4294967297", YML_INT_TYPE⟩ : Triple) ∈
        emitted (bytes "x: 4294967297\ny: 2147483648\n") ∧
      (⟨bytes "y", bytes "2147483648", YML_INT_TYPE⟩ : Triple) ∈
        emitted (bytes "x: 4294967297\ny: 2147483648\n") ∧
      atoi (bytes "4294967297") = 1 ∧ atoi (bytes "2147483648") = -2147483648 ∧
      (∃ p, execParser (initYmlParser (bytes "x: 4294967297\ny: 2147483648\n") empty_map) = some (1, p) ∧
        (⟨int_bytes (atoi (bytes "4294967297")), bytes "x", 4⟩ : yml_hash_map_elem) ∈
          p.map.elems (bucket (bytes "x"))) ∧
      ∃ p, execParser (initYmlParser (bytes "x: 4294967297\ny: 2147483648\n") empty_map) = some (1, p) ∧
        (⟨int_bytes (atoi (bytes "2147483648")), bytes "y", 4⟩ : yml_hash_map_elem) ∈
          p.map.elems (bucket (bytes "y")) := by
  refine ⟨by decide, by decide, by decide, by decide, ?_, ?_⟩
  · obtain ⟨_, p, h1, h2, _⟩ := c19_overflow_wraps_within_long
      (bytes "x: 4294967297\ny: 2147483648\n") empty_map (fun _ => rfl)
      ⟨bytes "x", bytes "4294967297", YML_INT_TYPE⟩ (by decide) rfl
    exact ⟨p, h1, h2⟩
  · obtain ⟨_, p, h1, h2, _⟩ := c19_overflow_wraps_within_long
      (bytes "x: 4294967297\ny: 2147483648\n") empty_map (fun _ => rfl)
      ⟨bytes "y", bytes "2147483648", YML_INT_TYPE⟩ (by decide) rfl
    exact ⟨p, h1, h2⟩

end YmlParser
